import Mathlib

/-!
Verification of the render orchestrator of codevis (src/render/function.rs).

The orchestrator source is embedded faithfully below.  Collaborators that the
orchestrator calls but whose sources are not part of the repository snapshot
(crate::render::chunk, crate::render::dimension, crate::render::Cache, the
syntect syntax and theme sets) are modelled from the specification; each such
definition carries a doc comment starting with "Modelled from the spec:".
-/

set_option linter.unusedVariables false

namespace Codevis

/-- RGB pixel value, one component per channel (image::Rgb of u8; no channel
arithmetic happens in the orchestrator, so plain naturals suffice). -/
abbrev Rgb := Nat × Nat × Nat

/-- Pixel coordinate (x, y) inside an image buffer. -/
abbrev Pos := Nat × Nat

/-- An image buffer, as a total map from coordinates to pixel values. -/
abbrev Canvas := Pos → Rgb

/-- Pure black, Rgb([0, 0, 0]). -/
def blackRgb : Rgb := (0, 0, 0)

/-- A freshly allocated buffer: MmapMut::map_anon memory is zero filled, and
RgbImage::new also zero fills, so every pixel starts out pure black. -/
def initialCanvas : Canvas := fun _ => blackRgb

/-- ImageBuffer::put_pixel: pointwise update of a buffer. -/
def putPixel (c : Canvas) (p : Pos) (v : Rgb) : Canvas :=
  fun q => if q = p then v else c q

/-- Apply a list of pixel writes in order; later writes win. -/
def applyWrites (ws : List (Pos × Rgb)) (c : Canvas) : Canvas :=
  ws.foldl (fun acc w => putPixel acc w.1 w.2) c

/-- The last write made to position q by a list of writes, if any. -/
def lastWrite (ws : List (Pos × Rgb)) (q : Pos) : Option Rgb :=
  (ws.reverse.find? (fun w => w.1 == q)).map Prod.snd

theorem applyWrites_nil (c : Canvas) : applyWrites [] c = c := rfl

theorem applyWrites_cons (w : Pos × Rgb) (ws : List (Pos × Rgb)) (c : Canvas) :
    applyWrites (w :: ws) c = applyWrites ws (putPixel c w.1 w.2) := rfl

theorem applyWrites_append (ws1 ws2 : List (Pos × Rgb)) (c : Canvas) :
    applyWrites (ws1 ++ ws2) c = applyWrites ws2 (applyWrites ws1 c) := by
  simp [applyWrites, List.foldl_append]

theorem lastWrite_nil (q : Pos) : lastWrite [] q = none := rfl

theorem lastWrite_cons (w : Pos × Rgb) (ws : List (Pos × Rgb)) (q : Pos) :
    lastWrite (w :: ws) q =
      (lastWrite ws q).or (if w.1 = q then some w.2 else none) := by
  simp only [lastWrite, List.reverse_cons, List.find?_append]
  rcases hfind : (List.find? (fun w => w.1 == q) ws.reverse) with _ | v
  · by_cases hq : w.1 = q
    · rw [List.find?_cons_of_pos _ (by simp [hq])]
      simp [hfind, hq]
    · rw [List.find?_cons_of_neg _ (by simp [hq])]
      simp [hq]
  · simp [hfind]

theorem lastWrite_append (ws1 ws2 : List (Pos × Rgb)) (q : Pos) :
    lastWrite (ws1 ++ ws2) q = (lastWrite ws2 q).or (lastWrite ws1 q) := by
  simp only [lastWrite, List.reverse_append, List.find?_append]
  rcases h : (ws2.reverse.find? (fun w => w.1 == q)) with _ | v <;>
    simp [h, Option.or]

theorem applyWrites_eq_lastWrite (ws : List (Pos × Rgb)) (c : Canvas) (q : Pos) :
    applyWrites ws c q = (lastWrite ws q).getD (c q) := by
  induction ws generalizing c with
  | nil => simp [applyWrites, lastWrite]
  | cons w t ih =>
      rw [applyWrites_cons, ih, lastWrite_cons]
      rcases h : lastWrite t q with _ | v
      · simp only [Option.getD, Option.or]
        by_cases hq : w.1 = q
        · rw [if_pos hq]
          simp [putPixel, hq.symm]
        · rw [if_neg hq]
          simp only [putPixel]
          rw [if_neg]
          intro hc
          exact hq hc.symm
      · simp [Option.or]

theorem lastWrite_eq_none (ws : List (Pos × Rgb)) (q : Pos)
    (h : q ∉ ws.map Prod.fst) : lastWrite ws q = none := by
  have hfind : ws.reverse.find? (fun w => w.1 == q) = none := by
    apply List.find?_eq_none.mpr
    intro x hx hbeq
    exact h (List.mem_map.mpr ⟨x, List.mem_reverse.mp hx, beq_iff_eq.mp hbeq⟩)
  simp [lastWrite, hfind]

theorem snd_unique_of_nodup_fst {ws : List (Pos × Rgb)} {q : Pos} {v1 v2 : Rgb}
    (hnd : (ws.map Prod.fst).Nodup) (h1 : (q, v1) ∈ ws) (h2 : (q, v2) ∈ ws) :
    v1 = v2 := by
  induction ws with
  | nil => cases h1
  | cons w t ih =>
      simp only [List.map_cons, List.nodup_cons] at hnd
      rcases List.mem_cons.mp h1 with e1 | m1
      · rcases List.mem_cons.mp h2 with e2 | m2
        · rw [← e1] at e2
          exact (Prod.mk.injEq _ _ _ _ ▸ e2).2.symm
        · exfalso
          apply hnd.1
          rw [← e1]
          exact List.mem_map.mpr ⟨(q, v2), m2, rfl⟩
      · rcases List.mem_cons.mp h2 with e2 | m2
        · exfalso
          apply hnd.1
          rw [← e2]
          exact List.mem_map.mpr ⟨(q, v1), m1, rfl⟩
        · exact ih hnd.2 m1 m2

theorem lastWrite_eq_some {ws : List (Pos × Rgb)} {q : Pos} {v : Rgb}
    (hnd : (ws.map Prod.fst).Nodup) (hmem : (q, v) ∈ ws) :
    lastWrite ws q = some v := by
  rcases hfind : ws.reverse.find? (fun w => w.1 == q) with _ | w
  · exfalso
    rw [List.find?_eq_none] at hfind
    exact hfind (q, v) (List.mem_reverse.mpr hmem) (by simp)
  · obtain ⟨a, b⟩ := w
    have hmemw : (a, b) ∈ ws := List.mem_reverse.mp (List.mem_of_find?_eq_some hfind)
    have hpa := List.find?_some hfind
    have hq : a = q := by simpa using hpa
    subst hq
    have hv : v = b := snd_unique_of_nodup_fst hnd hmem hmemw
    simp [lastWrite, hfind, hv]

/-- Modelled from the spec: the Offset Calculator of section 4.4
(crate::render::chunk::calc_offsets, whose source file is not under src).
Pure map from a global line index to the column x offset and row y offset:
column = index / lines_per_column, row = index % lines_per_column. -/
def calc_offsets (line_num lines_per_column column_width line_height : Nat) :
    Nat × Nat :=
  ((line_num / lines_per_column) * column_width,
   (line_num % lines_per_column) * line_height)

/-- Canvas coordinate of the pixel (x, h) inside the slot of global line g,
as placed by the Offset Calculator. -/
def slotPos (lpc cw lh g x h : Nat) : Pos :=
  ((calc_offsets g lpc cw lh).1 + x, (calc_offsets g lpc cw lh).2 + h)

theorem mulAdd_inj {cw a1 a2 x1 x2 : Nat} (hx1 : x1 < cw) (hx2 : x2 < cw)
    (h : a1 * cw + x1 = a2 * cw + x2) : a1 = a2 ∧ x1 = x2 := by
  have hcw : 0 < cw := Nat.lt_of_le_of_lt (Nat.zero_le x1) hx1
  have h1 : (a1 * cw + x1) / cw = a1 := by
    rw [Nat.mul_comm a1 cw, Nat.mul_add_div hcw, Nat.div_eq_of_lt hx1, Nat.add_zero]
  have h2 : (a2 * cw + x2) / cw = a2 := by
    rw [Nat.mul_comm a2 cw, Nat.mul_add_div hcw, Nat.div_eq_of_lt hx2, Nat.add_zero]
  have h3 : (a1 * cw + x1) % cw = x1 := by
    rw [Nat.mul_comm a1 cw, Nat.mul_add_mod, Nat.mod_eq_of_lt hx1]
  have h4 : (a2 * cw + x2) % cw = x2 := by
    rw [Nat.mul_comm a2 cw, Nat.mul_add_mod, Nat.mod_eq_of_lt hx2]
  constructor
  · rw [← h1, ← h2, h]
  · rw [← h3, ← h4, h]

/-- Distinct pixel coordinates inside distinct line slots: the Offset
Calculator places lines injectively, and pixels within a slot injectively. -/
theorem slotPos_inj {lpc cw lh g1 g2 x1 x2 h1 h2 : Nat} (hlpc : 0 < lpc)
    (hx1 : x1 < cw) (hx2 : x2 < cw) (hh1 : h1 < lh) (hh2 : h2 < lh)
    (heq : slotPos lpc cw lh g1 x1 h1 = slotPos lpc cw lh g2 x2 h2) :
    g1 = g2 ∧ x1 = x2 ∧ h1 = h2 := by
  simp only [slotPos, calc_offsets, Prod.mk.injEq] at heq
  have hx := mulAdd_inj hx1 hx2 heq.1
  have hh := mulAdd_inj hh1 hh2 heq.2
  refine ⟨?_, hx.2, hh.2⟩
  have e1 := Nat.div_add_mod g1 lpc
  have e2 := Nat.div_add_mod g2 lpc
  rw [← e1, ← e2, hx.1, hh.1]

/-- One input file: its path and its text, already split into physical lines
(str::lines on the Rust side; the orchestrator only ever counts these lines or
hands the text to the chunk renderer line by line). -/
structure SourceFile where
  path : String
  lines : List String
deriving DecidableEq, Repr

/-- Modelled from the spec: the read-only syntax-definition set of section 4.2
(a syntect SyntaxSet), exposed through the one lookup the orchestrator uses,
find_syntax_for_file, which resolves a file name to a syntax (identified here
by name) and may itself fail. -/
structure SyntaxSet where
  find_syntax_for_file : String → Except String (Option String)

/-- One element of the filtered content vector built by the counting phase of
render: the file, its line count, and the global line offset recorded for it
(the value of lines_so_far when it was pushed). -/
structure PlanEntry where
  file : SourceFile
  num_content_lines : Nat
  lines_so_far : Nat
deriving DecidableEq, Repr

/-- The counting and filtering loop of render (function.rs lines 41-58), with
its accumulators lines, num_ignored and lines_so_far.  When
skip_unsyntaxed_files is set the loop consults the syntax set and drops files
without a resolvable syntax, and a lookup failure propagates (the ? operator);
when it is not set, the && short-circuits and no lookup happens. -/
def planLoop (ss : SyntaxSet) (skip_unsyntaxed_files : Bool) :
    List SourceFile → Nat → Nat → Nat →
    Except String (List PlanEntry × Nat × Nat)
  | [], lines, num_ignored, _lines_so_far => .ok ([], lines, num_ignored)
  | f :: rest, lines, num_ignored, lines_so_far =>
    let num_content_lines := f.lines.length
    let lines1 := lines + num_content_lines
    if skip_unsyntaxed_files then
      match ss.find_syntax_for_file f.path with
      | .error e => .error e
      | .ok none =>
          planLoop ss skip_unsyntaxed_files rest (lines1 - num_content_lines)
            (num_ignored + 1) lines_so_far
      | .ok (some _) =>
          match planLoop ss skip_unsyntaxed_files rest lines1 num_ignored
              (lines_so_far + num_content_lines) with
          | .error e => .error e
          | .ok (out, l, n) =>
              .ok (⟨f, num_content_lines, lines_so_far⟩ :: out, l, n)
    else
      match planLoop ss skip_unsyntaxed_files rest lines1 num_ignored
          (lines_so_far + num_content_lines) with
      | .error e => .error e
      | .ok (out, l, n) =>
          .ok (⟨f, num_content_lines, lines_so_far⟩ :: out, l, n)

/-- The whole counting phase: all three accumulators start at zero. -/
def planFiles (ss : SyntaxSet) (skip_unsyntaxed_files : Bool)
    (content : List SourceFile) : Except String (List PlanEntry × Nat × Nat) :=
  planLoop ss skip_unsyntaxed_files content 0 0 0

/-- Whether the counting phase drops this file: only when
skip_unsyntaxed_files is set and the lookup succeeds with no syntax. -/
def skipsFile (ss : SyntaxSet) (skip_unsyntaxed_files : Bool)
    (f : SourceFile) : Bool :=
  skip_unsyntaxed_files &&
    (match ss.find_syntax_for_file f.path with
     | .ok none => true
     | _ => false)

/-- Specification view of the retained entries: the non-skipped files in
input order, each with its line count and the running offset. -/
def retainedEntriesFrom (ss : SyntaxSet) (sk : Bool) :
    Nat → List SourceFile → List PlanEntry
  | _, [] => []
  | lsf, f :: rest =>
    if skipsFile ss sk f then retainedEntriesFrom ss sk lsf rest
    else ⟨f, f.lines.length, lsf⟩ ::
      retainedEntriesFrom ss sk (lsf + f.lines.length) rest

/-- Total line count of the retained files. -/
def retainedLineSum (ss : SyntaxSet) (sk : Bool) : List SourceFile → Nat
  | [] => 0
  | f :: rest =>
    if skipsFile ss sk f then retainedLineSum ss sk rest
    else f.lines.length + retainedLineSum ss sk rest

/-- Number of skipped files. -/
def skippedCount (ss : SyntaxSet) (sk : Bool) : List SourceFile → Nat
  | [] => 0
  | f :: rest =>
    if skipsFile ss sk f then 1 + skippedCount ss sk rest
    else skippedCount ss sk rest

/-- Total line count of the skipped files. -/
def skippedLineSum (ss : SyntaxSet) (sk : Bool) : List SourceFile → Nat
  | [] => 0
  | f :: rest =>
    if skipsFile ss sk f then f.lines.length + skippedLineSum ss sk rest
    else skippedLineSum ss sk rest

theorem planLoop_ok_spec (ss : SyntaxSet) (sk : Bool) :
    ∀ (files : List SourceFile) (lines ni lsf : Nat)
      (entries : List PlanEntry) (total nig : Nat),
      planLoop ss sk files lines ni lsf = .ok (entries, total, nig) →
      entries = retainedEntriesFrom ss sk lsf files ∧
      total = lines + retainedLineSum ss sk files ∧
      nig = ni + skippedCount ss sk files
  | [], lines, ni, lsf, entries, total, nig => by
      intro h
      simp only [planLoop, Except.ok.injEq, Prod.mk.injEq] at h
      obtain ⟨h1, h2, h3⟩ := h
      simp [← h1, ← h2, ← h3, retainedEntriesFrom, retainedLineSum, skippedCount]
  | f :: rest, lines, ni, lsf, entries, total, nig => by
      intro h
      simp only [planLoop] at h
      by_cases hsk : sk = true
      · rw [if_pos hsk] at h
        rcases hfind : ss.find_syntax_for_file f.path with e | os
        · rw [hfind] at h
          cases h
        · rw [hfind] at h
          rcases os with _ | s
          · have hskip : skipsFile ss sk f = true := by
              simp [skipsFile, hsk, hfind]
            obtain ⟨ha, hb, hc⟩ := planLoop_ok_spec ss sk rest
              (lines + f.lines.length - f.lines.length) (ni + 1) lsf
              entries total nig h
            simp only [retainedEntriesFrom, retainedLineSum, skippedCount, hskip,
              if_true]
            exact ⟨ha, by omega, by omega⟩
          · have hskip : skipsFile ss sk f = false := by
              simp [skipsFile, hsk, hfind]
            rcases hrec : planLoop ss sk rest (lines + f.lines.length) ni
                (lsf + f.lines.length) with e | out
            · rw [hrec] at h
              cases h
            · rw [hrec] at h
              obtain ⟨out1, l1, n1⟩ := out
              simp only [Except.ok.injEq, Prod.mk.injEq] at h
              obtain ⟨h1, h2, h3⟩ := h
              obtain ⟨ha, hb, hc⟩ := planLoop_ok_spec ss sk rest
                (lines + f.lines.length) ni (lsf + f.lines.length) out1 l1 n1 hrec
              simp only [retainedEntriesFrom, retainedLineSum, skippedCount, hskip,
                Bool.false_eq_true, if_false]
              exact ⟨by rw [← h1, ha], by omega, by omega⟩
      · have hskb : sk = false := by simpa using hsk
        subst hskb
        rw [if_neg (by simp)] at h
        have hskip : skipsFile ss false f = false := by simp [skipsFile]
        rcases hrec : planLoop ss false rest (lines + f.lines.length) ni
            (lsf + f.lines.length) with e | out
        · rw [hrec] at h
          cases h
        · rw [hrec] at h
          obtain ⟨out1, l1, n1⟩ := out
          simp only [Except.ok.injEq, Prod.mk.injEq] at h
          obtain ⟨h1, h2, h3⟩ := h
          obtain ⟨ha, hb, hc⟩ := planLoop_ok_spec ss false rest
            (lines + f.lines.length) ni (lsf + f.lines.length) out1 l1 n1 hrec
          simp only [retainedEntriesFrom, retainedLineSum, skippedCount, hskip,
            Bool.false_eq_true, if_false]
          exact ⟨by rw [← h1, ha], by omega, by omega⟩

/-- With skip_unsyntaxed_files unset the counting loop never consults the
syntax set (the && short-circuits), so it cannot fail, whatever the lookup
does: it retains every file. -/
theorem planLoop_no_skip (ss : SyntaxSet) :
    ∀ (files : List SourceFile) (lines ni lsf : Nat),
      planLoop ss false files lines ni lsf =
        .ok (retainedEntriesFrom ss false lsf files,
             lines + retainedLineSum ss false files, ni)
  | [], lines, ni, lsf => by
      simp [planLoop, retainedEntriesFrom, retainedLineSum]
  | f :: rest, lines, ni, lsf => by
      have hskip : skipsFile ss false f = false := by simp [skipsFile]
      simp only [planLoop, Bool.false_eq_true, if_false,
        planLoop_no_skip ss rest (lines + f.lines.length) ni
          (lsf + f.lines.length)]
      simp only [retainedEntriesFrom, retainedLineSum, hskip,
        Bool.false_eq_true, if_false, Except.ok.injEq, Prod.mk.injEq,
        true_and, and_true]
      omega

/-- The offsets recorded in a list of plan entries chain: each entry starts at
the running total and covers exactly its line count. -/
def Chained : Nat → List PlanEntry → Prop
  | _, [] => True
  | lsf, e :: rest =>
      e.lines_so_far = lsf ∧ e.num_content_lines = e.file.lines.length ∧
      Chained (lsf + e.num_content_lines) rest

theorem retainedEntriesFrom_chained (ss : SyntaxSet) (sk : Bool) :
    ∀ (files : List SourceFile) (lsf : Nat),
      Chained lsf (retainedEntriesFrom ss sk lsf files)
  | [], lsf => trivial
  | f :: rest, lsf => by
      by_cases hskip : skipsFile ss sk f = true
      · rw [retainedEntriesFrom, if_pos hskip]
        exact retainedEntriesFrom_chained ss sk rest lsf
      · rw [retainedEntriesFrom, if_neg hskip]
        exact ⟨rfl, rfl, retainedEntriesFrom_chained ss sk rest (lsf + f.lines.length)⟩

/-- The retained entries carry line counts summing to the retained total. -/
theorem retainedEntriesFrom_sum (ss : SyntaxSet) (sk : Bool) :
    ∀ (files : List SourceFile) (lsf : Nat),
      ((retainedEntriesFrom ss sk lsf files).map
        PlanEntry.num_content_lines).sum = retainedLineSum ss sk files
  | [], lsf => rfl
  | f :: rest, lsf => by
      by_cases hskip : skipsFile ss sk f = true
      · rw [retainedEntriesFrom, if_pos hskip, retainedLineSum, if_pos hskip]
        exact retainedEntriesFrom_sum ss sk rest lsf
      · rw [retainedEntriesFrom, if_neg hskip, retainedLineSum, if_neg hskip]
        simp only [List.map_cons, List.sum_cons]
        rw [retainedEntriesFrom_sum ss sk rest (lsf + f.lines.length)]

/-- Every retained entry is an unskipped file with its own line count. -/
theorem retainedEntriesFrom_mem (ss : SyntaxSet) (sk : Bool) :
    ∀ (files : List SourceFile) (lsf : Nat) (e : PlanEntry),
      e ∈ retainedEntriesFrom ss sk lsf files →
      skipsFile ss sk e.file = false ∧
      e.num_content_lines = e.file.lines.length ∧ e.file ∈ files
  | [], lsf, e => by intro h; cases h
  | f :: rest, lsf, e => by
      intro h
      by_cases hskip : skipsFile ss sk f = true
      · rw [retainedEntriesFrom, if_pos hskip] at h
        obtain ⟨h1, h2, h3⟩ := retainedEntriesFrom_mem ss sk rest lsf e h
        exact ⟨h1, h2, List.mem_cons_of_mem _ h3⟩
      · rw [retainedEntriesFrom, if_neg hskip] at h
        rcases List.mem_cons.mp h with he | ht
        · subst he
          exact ⟨by simpa using hskip, rfl, List.mem_cons_self _ _⟩
        · obtain ⟨h1, h2, h3⟩ := retainedEntriesFrom_mem ss sk rest
            (lsf + f.lines.length) e ht
          exact ⟨h1, h2, List.mem_cons_of_mem _ h3⟩

/-- Retained plus skipped lines account for every input line. -/
theorem retained_add_skipped (ss : SyntaxSet) (sk : Bool) :
    ∀ (files : List SourceFile),
      retainedLineSum ss sk files + skippedLineSum ss sk files =
        (files.map (fun f => f.lines.length)).sum
  | [] => rfl
  | f :: rest => by
      have ih := retained_add_skipped ss sk rest
      by_cases hskip : skipsFile ss sk f = true
      · rw [retainedLineSum, if_pos hskip, skippedLineSum, if_pos hskip]
        simp only [List.map_cons, List.sum_cons]
        omega
      · rw [retainedLineSum, if_neg hskip, skippedLineSum, if_neg hskip]
        simp only [List.map_cons, List.sum_cons]
        omega

theorem chained_getElem_lines_so_far :
    ∀ (entries : List PlanEntry) (lsf : Nat), Chained lsf entries →
      ∀ (k : Nat) (hk : k < entries.length),
        entries[k].lines_so_far =
          lsf + ((entries.take k).map PlanEntry.num_content_lines).sum
  | [], lsf, _, k, hk => by cases hk
  | e :: rest, lsf, hch, 0, hk => by
      simpa using hch.1
  | e :: rest, lsf, hch, k + 1, hk => by
      have ih := chained_getElem_lines_so_far rest (lsf + e.num_content_lines)
        hch.2.2 k (by simpa using Nat.lt_of_succ_lt_succ hk)
      simp only [List.getElem_cons_succ, List.take_succ_cons, List.map_cons,
        List.sum_cons]
      omega

theorem chained_range_le :
    ∀ (entries : List PlanEntry) (lsf : Nat), Chained lsf entries →
      ∀ (k : Nat) (hk : k < entries.length),
        lsf ≤ entries[k].lines_so_far ∧
        entries[k].lines_so_far + entries[k].num_content_lines ≤
          lsf + (entries.map PlanEntry.num_content_lines).sum
  | [], lsf, _, k, hk => by cases hk
  | e :: rest, lsf, hch, 0, hk => by
      simp only [List.getElem_cons_zero, List.map_cons, List.sum_cons]
      constructor
      · rw [hch.1]
      · rw [hch.1]
        omega
  | e :: rest, lsf, hch, k + 1, hk => by
      have ih := chained_range_le rest (lsf + e.num_content_lines) hch.2.2 k
        (by simpa using Nat.lt_of_succ_lt_succ hk)
      simp only [List.getElem_cons_succ, List.map_cons, List.sum_cons]
      omega

/-- Distinct retained entries occupy disjoint, input-ordered line ranges. -/
theorem chained_disjoint :
    ∀ (entries : List PlanEntry) (lsf : Nat), Chained lsf entries →
      ∀ (k l : Nat) (hk : k < entries.length) (hl : l < entries.length),
        k < l →
        entries[k].lines_so_far + entries[k].num_content_lines ≤
          entries[l].lines_so_far
  | [], lsf, _, k, l, hk, hl => by cases hk
  | e :: rest, lsf, hch, 0, 0, hk, hl => by omega
  | e :: rest, lsf, hch, 0, l + 1, hk, hl => by
      intro _
      have hge := (chained_range_le rest (lsf + e.num_content_lines) hch.2.2 l
        (by simpa using Nat.lt_of_succ_lt_succ hl)).1
      simp only [List.getElem_cons_zero, List.getElem_cons_succ]
      rw [hch.1]
      omega
  | e :: rest, lsf, hch, k + 1, l + 1, hk, hl => by
      intro hkl
      have ih := chained_disjoint rest (lsf + e.num_content_lines) hch.2.2 k l
        (by simpa using Nat.lt_of_succ_lt_succ hk)
        (by simpa using Nat.lt_of_succ_lt_succ hl)
        (by omega)
      simpa using ih
  | e :: rest, lsf, hch, k + 1, 0, hk, hl => by
      intro hkl
      omega

/-- The layout returned by the Dimension Planner (crate::render::Dimension). -/
structure Dimension where
  imgx : Nat
  imgy : Nat
  lines_per_column : Nat
  required_columns : Nat
deriving DecidableEq, Repr

/-- Modelled from the spec: the aspect-ratio distance of one candidate column
count (section 4.1).  lines_per_column = ceil(total / cc); the actual ratio is
(cc * column_width) / (lines_per_column * line_height); the distance is the
absolute difference from the target.  The f64 arithmetic of the Rust side is
modelled with exact rationals. -/
def ratioDistance (target : ℚ) (column_width line_height total cc : Nat) : ℚ :=
  let lpc := (total + cc - 1) / cc
  |(((cc * column_width : Nat) : ℚ) / ((lpc * line_height : Nat) : ℚ)) - target|

/-- Modelled from the spec: one selection step of the candidate search, the
earlier candidate winning ties. -/
def chooseStep (target : ℚ) (cw lh total : Nat) (best : Option Nat)
    (c : Nat) : Option Nat :=
  match best with
  | none => some c
  | some b =>
      if ratioDistance target cw lh total c < ratioDistance target cw lh total b
      then some c else some b

theorem chooseStep_none (target : ℚ) (cw lh total c : Nat) :
    chooseStep target cw lh total none c = some c := rfl

theorem chooseStep_some (target : ℚ) (cw lh total c b : Nat) :
    chooseStep target cw lh total (some b) c =
      if ratioDistance target cw lh total c < ratioDistance target cw lh total b
      then some c else some b := rfl

/-- Modelled from the spec: select the candidate column count minimizing the
aspect-ratio distance. -/
def chooseBest (target : ℚ) (cw lh total : Nat) (cands : List Nat) :
    Option Nat :=
  cands.foldl (chooseStep target cw lh total) none

theorem chooseBest_mem_aux (target : ℚ) (cw lh total : Nat) :
    ∀ (cands : List Nat) (acc : Option Nat) (cc : Nat),
      cands.foldl (chooseStep target cw lh total) acc = some cc →
      cc ∈ cands ∨ acc = some cc
  | [], acc, cc => by
      intro h
      exact Or.inr h
  | c :: t, acc, cc => by
      intro h
      rw [List.foldl_cons] at h
      rcases acc with _ | b
      · rw [chooseStep_none] at h
        rcases chooseBest_mem_aux target cw lh total t (some c) cc h with hm | he
        · exact Or.inl (List.mem_cons_of_mem _ hm)
        · simp only [Option.some.injEq] at he
          exact Or.inl (he ▸ List.mem_cons_self _ _)
      · rw [chooseStep_some] at h
        by_cases hlt : ratioDistance target cw lh total c <
            ratioDistance target cw lh total b
        · rw [if_pos hlt] at h
          rcases chooseBest_mem_aux target cw lh total t (some c) cc h with hm | he
          · exact Or.inl (List.mem_cons_of_mem _ hm)
          · simp only [Option.some.injEq] at he
            exact Or.inl (he ▸ List.mem_cons_self _ _)
        · rw [if_neg hlt] at h
          rcases chooseBest_mem_aux target cw lh total t (some b) cc h with hm | he
          · exact Or.inl (List.mem_cons_of_mem _ hm)
          · exact Or.inr he

theorem chooseBest_isSome_aux (target : ℚ) (cw lh total : Nat) :
    ∀ (cands : List Nat) (acc : Option Nat), acc.isSome →
      (cands.foldl (chooseStep target cw lh total) acc).isSome
  | [], acc => fun h => h
  | c :: t, acc => by
      intro h
      rw [List.foldl_cons]
      rcases acc with _ | b
      · cases h
      · rw [chooseStep_some]
        by_cases hlt : ratioDistance target cw lh total c <
            ratioDistance target cw lh total b
        · rw [if_pos hlt]
          exact chooseBest_isSome_aux target cw lh total t (some c) rfl
        · rw [if_neg hlt]
          exact chooseBest_isSome_aux target cw lh total t (some b) rfl

theorem chooseBest_isSome (target : ℚ) (cw lh total : Nat) (c : Nat)
    (t : List Nat) : (chooseBest target cw lh total (c :: t)).isSome := by
  rw [chooseBest, List.foldl_cons, chooseStep_none]
  exact chooseBest_isSome_aux target cw lh total t (some c) rfl

/-- Candidate column counts searched by the planner: 1 up to one column per
line. -/
def dimensionCands (total : Nat) : List Nat :=
  (List.range total).map (fun k => k + 1)

/-- The candidate pool after the force_full_columns restriction: candidates
whose column grid holds the total exactly, when any exist. -/
def dimensionPool (total : Nat) (force : Bool) : List Nat :=
  if force then
    if ((dimensionCands total).filter
        (fun cc => cc * ((total + cc - 1) / cc) == total)).isEmpty
    then dimensionCands total
    else (dimensionCands total).filter
      (fun cc => cc * ((total + cc - 1) / cc) == total)
  else dimensionCands total

theorem dimensionPool_subset {total : Nat} {force : Bool} {cc : Nat}
    (h : cc ∈ dimensionPool total force) : cc ∈ dimensionCands total := by
  rw [dimensionPool] at h
  by_cases hf : force = true
  · rw [if_pos hf] at h
    by_cases hex : ((dimensionCands total).filter
        (fun cc => cc * ((total + cc - 1) / cc) == total)).isEmpty
    · rwa [if_pos hex] at h
    · rw [if_neg hex] at h
      exact List.mem_of_mem_filter h
  · rw [if_neg hf] at h
    exact h

/-- Modelled from the spec: the Dimension Planner
(crate::render::dimension::compute, section 4.1; its source file is not under
src).  It searches candidate column counts starting at 1, takes
lines_per_column = ceil(total / candidate), and selects the candidate whose
actual aspect ratio is closest to the target; with force_full_columns the
search is restricted to candidates dividing the total exactly when any exist.
It rejects a non-positive target aspect ratio. -/
def dimension_compute (target : ℚ)
    (column_width total_line_count line_height : Nat)
    (force_full_columns : Bool) : Except String Dimension :=
  if target ≤ 0 then .error "InvalidAspectRatio"
  else
    match chooseBest target column_width line_height total_line_count
        (dimensionPool total_line_count force_full_columns) with
    | none => .error "EmptyInput"
    | some cc =>
        .ok ⟨cc * column_width,
             ((total_line_count + cc - 1) / cc) * line_height,
             (total_line_count + cc - 1) / cc, cc⟩

theorem ceil_div_mul_ge {a b : Nat} (hb : 0 < b) : a ≤ ((a + b - 1) / b) * b := by
  by_contra hlt
  push_neg at hlt
  set q := (a + b - 1) / b with hq
  have h2 : (q + 1) * b ≤ a + b - 1 := by
    have hs : (q + 1) * b = q * b + b := by ring
    rw [hs]
    omega
  have h3 : q + 1 ≤ (a + b - 1) / b := (Nat.le_div_iff_mul_le hb).mpr h2
  omega

theorem ceil_div_pos {a b : Nat} (hb : 0 < b) (ha : 0 < a) :
    1 ≤ (a + b - 1) / b := by
  apply (Nat.le_div_iff_mul_le hb).mpr
  omega

/-- Facts the orchestrator relies on about any successfully computed layout:
at least one column and one line per column, enough slots for every line, and
image dimensions matching the grid. -/
theorem dimension_compute_spec {target : ℚ} {cw total lh : Nat}
    {force : Bool} {d : Dimension}
    (h : dimension_compute target cw total lh force = .ok d)
    (htotal : 0 < total) :
    1 ≤ d.required_columns ∧ d.required_columns ≤ total ∧
    d.lines_per_column = (total + d.required_columns - 1) / d.required_columns ∧
    1 ≤ d.lines_per_column ∧
    total ≤ d.lines_per_column * d.required_columns ∧
    d.imgx = d.required_columns * cw ∧ d.imgy = d.lines_per_column * lh := by
  rw [dimension_compute] at h
  by_cases htneg : target ≤ 0
  · rw [if_pos htneg] at h
    cases h
  · rw [if_neg htneg] at h
    rcases hbest : chooseBest target cw lh total (dimensionPool total force)
      with _ | cc
    · rw [hbest] at h
      cases h
    · rw [hbest] at h
      simp only [Except.ok.injEq] at h
      have hmem : cc ∈ dimensionCands total := by
        rw [chooseBest] at hbest
        rcases chooseBest_mem_aux target cw lh total _ none cc hbest with hm | he
        · exact dimensionPool_subset hm
        · cases he
      have hcc : 1 ≤ cc ∧ cc ≤ total := by
        rcases List.mem_map.mp hmem with ⟨k, hk, hkk⟩
        rw [List.mem_range] at hk
        omega
      subst h
      refine ⟨hcc.1, hcc.2, rfl, ?_, ?_, rfl, rfl⟩
      · exact ceil_div_pos (by omega) htotal
      · have := ceil_div_mul_ge (a := total) (b := cc) (by omega)
        exact this

/-- Concatenate strings with a separator, as Vec::join does. -/
def joinStrings (sep : String) : List String → String
  | [] => ""
  | [s] => s
  | s :: t :: rest => s ++ sep ++ joinStrings sep (t :: rest)

/-- Debug-quote a name, as the Rust debug format of the message does. -/
def quoteStr (s : String) : String := "\"" ++ s ++ "\""

/-- The ThemeNotFound message built at function.rs lines 110-117: it lists
every available theme name of the set, comma separated and quoted. -/
def themeErrorMessage (theme : String) (keys : List String) : String :=
  "Could not find theme " ++ quoteStr theme ++ ", must be one of " ++
    joinStrings ", " (keys.map quoteStr)

/-- The failures render surfaces (anyhow errors on the Rust side, told apart
here by constructor, each carrying what its message carries). -/
inductive RenderError where
  | noRenderableLines (num_files : Nat)
  | dimensionFailed (msg : String)
  | themeNotFound (message : String)
  | syntaxLookup (msg : String)
  | cancelled
deriving DecidableEq, Repr

/-- The render options (crate::render::Options), as destructured at the head
of render.  The last flag is the one enabling the planner to drop files
without a resolvable syntax (the spec calls it skip_unsyntaxed_files); the
f32 color modulation is carried as an exact rational. -/
structure Options where
  column_width : Nat
  line_height : Nat
  target_aspect_ratio : ℚ
  threads : Nat
  fg_color : Option Rgb
  bg_color : Option Rgb
  highlight_truncated_lines : Bool
  display_to_be_processed_file : Bool
  theme : String
  force_full_columns : Bool
  plain : Bool
  skip_unsyntaxed_files : Bool
  color_modulation : ℚ
deriving DecidableEq

/-- The fields of chunk::Context that determine pixel colors (section 4.3):
slot geometry, the truncation flag, the color overrides, the modulation, and
the file index driving the per-file hue.  The placement fields line_num and
lines_per_column are not included: per sections 4.3 and 4.4 they only place a
line through the Offset Calculator, they never color it. -/
structure StyleContext where
  column_width : Nat
  line_height : Nat
  total_line_count : Nat
  highlight_truncated_lines : Bool
  fg_color : Option Rgb
  bg_color : Option Rgb
  file_index : Nat
  color_modulation : ℚ
deriving DecidableEq

/-- chunk::Context, the layout context handed to chunk::process. -/
structure ChunkContext where
  column_width : Nat
  line_height : Nat
  total_line_count : Nat
  highlight_truncated_lines : Bool
  line_num : Nat
  lines_per_column : Nat
  fg_color : Option Rgb
  bg_color : Option Rgb
  file_index : Nat
  color_modulation : ℚ

/-- The style part of a chunk context. -/
def ChunkContext.style (ctx : ChunkContext) : StyleContext :=
  ⟨ctx.column_width, ctx.line_height, ctx.total_line_count,
   ctx.highlight_truncated_lines, ctx.fg_color, ctx.bg_color, ctx.file_index,
   ctx.color_modulation⟩

/-- The per-file outcome of chunk::process. -/
structure ChunkOutcome where
  longest_line_in_chars : Nat
  background : Option Rgb
deriving DecidableEq, Repr

/-- Modelled from the spec: the chunk renderer with its highlighting pipeline
(crate::render::chunk::process together with the Cache highlighters of
section 4.2; neither source file is under src).  The highlighter for a file is
resolved from its file name alone (section 4.2), so the styled spans of a
line, and hence the color a slot pixel receives, are a function of the file,
the line index inside the file, the pixel position inside the slot, and the
style context; none means the renderer leaves that pixel untouched.  The
outcome carries the longest line in chars and the background sampled from the
theme (section 3), both per-file deterministic. -/
structure ChunkModel where
  pixel : StyleContext → SourceFile → Nat → Nat → Nat → Option Rgb
  outcome : StyleContext → SourceFile → ChunkOutcome

/-- The pixel writes chunk::process performs on its target buffer: for each
line l of the text the slot of line ctx.line_num + l is placed by the Offset
Calculator, and inside it every pixel (x, h) the model colors is written. -/
def chunkWrites (M : ChunkModel) (f : SourceFile) (ctx : ChunkContext) :
    List (Pos × Rgb) :=
  ((List.range f.lines.length) ×ˢ
      ((List.range ctx.column_width) ×ˢ (List.range ctx.line_height))).filterMap
    (fun t =>
      (M.pixel ctx.style f t.1 t.2.1 t.2.2).map
        (fun c =>
          (slotPos ctx.lines_per_column ctx.column_width ctx.line_height
            (ctx.line_num + t.1) t.2.1 t.2.2, c)))

/-- chunk::process: perform the writes and report the outcome. -/
def chunkProcess (M : ChunkModel) (f : SourceFile) (ctx : ChunkContext)
    (img : Canvas) : Canvas × ChunkOutcome :=
  (applyWrites (chunkWrites M f ctx) img, M.outcome ctx.style f)

theorem mem_chunkWrites {M : ChunkModel} {f : SourceFile} {ctx : ChunkContext}
    {p : Pos} {c : Rgb} :
    (p, c) ∈ chunkWrites M f ctx ↔
    ∃ l x h, l < f.lines.length ∧ x < ctx.column_width ∧
      h < ctx.line_height ∧ M.pixel ctx.style f l x h = some c ∧
      p = slotPos ctx.lines_per_column ctx.column_width ctx.line_height
        (ctx.line_num + l) x h := by
  constructor
  · intro hmem
    rcases List.mem_filterMap.mp hmem with ⟨t, htmem, htval⟩
    obtain ⟨l, x, h⟩ := t
    have hb := List.mem_product.mp htmem
    have hb2 := List.mem_product.mp hb.2
    rcases hpix : M.pixel ctx.style f l x h with _ | cv
    · rw [hpix] at htval
      cases htval
    · rw [hpix] at htval
      simp at htval
      refine ⟨l, x, h, List.mem_range.mp hb.1, List.mem_range.mp hb2.1,
        List.mem_range.mp hb2.2, ?_, htval.1.symm⟩
      rw [hpix, htval.2]
  · rintro ⟨l, x, h, hl, hx, hh, hpix, hp⟩
    apply List.mem_filterMap.mpr
    refine ⟨(l, x, h), ?_, ?_⟩
    · exact List.mem_product.mpr ⟨List.mem_range.mpr hl,
        List.mem_product.mpr ⟨List.mem_range.mpr hx, List.mem_range.mpr hh⟩⟩
    · rw [hpix]
      simp [hp]

theorem nodup_filterMap_of_injOn {α β : Type} [DecidableEq β] {l : List α}
    {g : α → Option β} (hl : l.Nodup)
    (hinj : ∀ a1, a1 ∈ l → ∀ a2, a2 ∈ l → ∀ b,
      g a1 = some b → g a2 = some b → a1 = a2) :
    (l.filterMap g).Nodup := by
  induction l with
  | nil => exact List.nodup_nil
  | cons a t ih =>
      rw [List.filterMap_cons]
      rcases hga : g a with _ | b
      · exact ih (List.nodup_cons.mp hl).2
          (fun a1 h1 a2 h2 b hb1 hb2 =>
            hinj a1 (List.mem_cons_of_mem _ h1) a2 (List.mem_cons_of_mem _ h2)
              b hb1 hb2)
      · apply List.nodup_cons.mpr
        constructor
        · intro hbmem
          rcases List.mem_filterMap.mp hbmem with ⟨a2, ha2, hga2⟩
          have : a = a2 := hinj a (List.mem_cons_self _ _) a2
            (List.mem_cons_of_mem _ ha2) b hga hga2
          exact (List.nodup_cons.mp hl).1 (this ▸ ha2)
        · exact ih (List.nodup_cons.mp hl).2
            (fun a1 h1 a2 h2 b hb1 hb2 =>
              hinj a1 (List.mem_cons_of_mem _ h1) a2
                (List.mem_cons_of_mem _ h2) b hb1 hb2)

theorem chunkWrites_nodup_fst {M : ChunkModel} {f : SourceFile}
    {ctx : ChunkContext} (hlpc : 0 < ctx.lines_per_column) :
    ((chunkWrites M f ctx).map Prod.fst).Nodup := by
  rw [chunkWrites, List.map_filterMap]
  apply nodup_filterMap_of_injOn
  · exact List.Nodup.product (List.nodup_range _)
      (List.Nodup.product (List.nodup_range _) (List.nodup_range _))
  · rintro ⟨l1, x1, h1⟩ hm1 ⟨l2, x2, h2⟩ hm2 p hp1 hp2
    have hb1 := List.mem_product.mp hm1
    have hb12 := List.mem_product.mp hb1.2
    have hb2 := List.mem_product.mp hm2
    have hb22 := List.mem_product.mp hb2.2
    rcases hpix1 : M.pixel ctx.style f l1 x1 h1 with _ | c1
    · rw [hpix1] at hp1
      cases hp1
    · rcases hpix2 : M.pixel ctx.style f l2 x2 h2 with _ | c2
      · rw [hpix2] at hp2
        cases hp2
      · rw [hpix1] at hp1
        rw [hpix2] at hp2
        simp at hp1 hp2
        have heq : slotPos ctx.lines_per_column ctx.column_width
            ctx.line_height (ctx.line_num + l1) x1 h1 =
            slotPos ctx.lines_per_column ctx.column_width ctx.line_height
            (ctx.line_num + l2) x2 h2 := by rw [hp1, hp2]
        obtain ⟨hg, hx, hh⟩ := slotPos_inj hlpc
          (List.mem_range.mp hb12.1) (List.mem_range.mp hb22.1)
          (List.mem_range.mp hb12.2) (List.mem_range.mp hb22.2) heq
        have : l1 = l2 := by omega
        simp [this, hx, hh]

/-- One slot of the bottom-right fill: the loops at function.rs lines 282-286
write every pixel of the slot of line ln with the background color. -/
def fillSlotWrites (cw lh lpc ln : Nat) (bg : Rgb) : List (Pos × Rgb) :=
  ((List.range cw) ×ˢ (List.range lh)).map
    (fun t => (slotPos lpc cw lh ln t.1 t.2, bg))

/-- The while loop at function.rs lines 277-288, unrolled on its iteration
count: starting at line counter ln it runs exactly
lines_per_column * required_columns - ln times, filling one line slot per
iteration and then advancing the counter. -/
def fillLoop (cw lh lpc : Nat) (bg : Rgb) : Nat → Nat → Canvas → Canvas
  | _, 0, c => c
  | ln, count + 1, c =>
      fillLoop cw lh lpc bg (ln + 1) count
        (applyWrites (fillSlotWrites cw lh lpc ln bg) c)

/-- Every fill write as one flat list. -/
def fillWrites (cw lh lpc : Nat) (bg : Rgb) (ln count : Nat) :
    List (Pos × Rgb) :=
  ((List.range' ln count).map (fun i => fillSlotWrites cw lh lpc i bg)).flatten

theorem fillLoop_eq_applyWrites (cw lh lpc : Nat) (bg : Rgb) :
    ∀ (count ln : Nat) (c : Canvas),
      fillLoop cw lh lpc bg ln count c =
        applyWrites (fillWrites cw lh lpc bg ln count) c
  | 0, ln, c => by
      simp [fillLoop, fillWrites, applyWrites]
  | count + 1, ln, c => by
      rw [fillLoop, fillLoop_eq_applyWrites cw lh lpc bg count (ln + 1)]
      simp only [fillWrites]
      rw [List.range'_succ, List.map_cons, List.flatten_cons, applyWrites_append]

theorem mem_fillWrites {cw lh lpc ln count : Nat} {bg : Rgb} {p : Pos}
    {c : Rgb} :
    (p, c) ∈ fillWrites cw lh lpc bg ln count ↔
    (c = bg ∧ ∃ i x h, ln ≤ i ∧ i < ln + count ∧ x < cw ∧ h < lh ∧
      p = slotPos lpc cw lh i x h) := by
  constructor
  · intro hmem
    rcases List.mem_flatten.mp hmem with ⟨block, hblock, hpmem⟩
    rcases List.mem_map.mp hblock with ⟨i, hi, hival⟩
    rw [← hival] at hpmem
    rcases List.mem_map.mp hpmem with ⟨t, htmem, htval⟩
    obtain ⟨x, h⟩ := t
    have hb := List.mem_product.mp htmem
    simp only [Prod.mk.injEq] at htval
    have hrange := List.mem_range'_1.mp hi
    exact ⟨htval.2.symm, i, x, h, hrange.1, hrange.2,
      List.mem_range.mp hb.1, List.mem_range.mp hb.2, htval.1.symm⟩
  · rintro ⟨hc, i, x, h, hge, hlt, hx, hh, hp⟩
    apply List.mem_flatten.mpr
    refine ⟨fillSlotWrites cw lh lpc i bg, List.mem_map.mpr
      ⟨i, List.mem_range'_1.mpr ⟨hge, hlt⟩, rfl⟩, ?_⟩
    apply List.mem_map.mpr
    exact ⟨(x, h), List.mem_product.mpr
      ⟨List.mem_range.mpr hx, List.mem_range.mpr hh⟩, by rw [← hp, ← hc]⟩

/-- The running aggregation state of either rendering path. -/
structure RunState where
  line_num : Nat
  longest_line_chars : Nat
  background : Option Rgb
  canvas : Canvas

/-- Outcome of a rendering path; processed counts the files whose pixels were
produced (sequential path: chunk calls made, parallel path: results
stitched). -/
inductive RunResult where
  | ok (st : RunState) (processed : Nat)
  | cancelled (st : RunState) (processed : Nat)
  | lookupFailed (msg : String) (st : RunState) (processed : Nat)

/-- chunk::Context as the sequential path fills it (function.rs lines
150-161): the running global line_num and the real lines_per_column. -/
def seqChunkCtx (opts : Options) (total lpc file_index line_num : Nat) :
    ChunkContext :=
  ⟨opts.column_width, opts.line_height, total,
   opts.highlight_truncated_lines, line_num, lpc, opts.fg_color,
   opts.bg_color, file_index, opts.color_modulation⟩

/-- chunk::Context as a worker fills it (function.rs lines 221-232): line_num
zero and lines_per_column = total_line_count, so the private one-column image
is written top to bottom. -/
def parChunkCtx (opts : Options) (total file_index : Nat) : ChunkContext :=
  ⟨opts.column_width, opts.line_height, total,
   opts.highlight_truncated_lines, 0, total, opts.fg_color, opts.bg_color,
   file_index, opts.color_modulation⟩

/-- The sequential rendering path (function.rs lines 125-169) over the
enumerated retained entries: poll the interrupt flag before each file, switch
the highlighter unless plain (a lookup failure propagates through ?), render
the chunk straight onto the shared canvas at the running global line_num,
then fold the outcome into the aggregates. -/
def seqRun (M : ChunkModel) (ss : SyntaxSet) (opts : Options) (flag : Bool)
    (total lpc : Nat) :
    List (Nat × PlanEntry) → RunState → Nat → RunResult
  | [], st, processed => .ok st processed
  | (file_index, e) :: rest, st, processed =>
    if flag then .cancelled st processed
    else
      match (if opts.plain then Except.ok (none : Option String)
             else ss.find_syntax_for_file e.file.path) with
      | .error msg => .lookupFailed msg st processed
      | .ok _ =>
          match chunkProcess M e.file
              (seqChunkCtx opts total lpc file_index st.line_num) st.canvas with
          | (canvas1, out) =>
              seqRun M ss opts flag total lpc rest
                ⟨st.line_num + e.num_content_lines,
                 max out.longest_line_in_chars st.longest_line_chars,
                 out.background, canvas1⟩
                (processed + 1)

/-- The collector stitch loops (function.rs lines 247-262): every pixel of
the one-column private image of a file is copied into the final canvas, the
slot of relative line l landing at global line lines_so_far + l (reduced mod
the total) through the Offset Calculator. -/
def copyWrites (cw lh total lpc : Nat) (e : PlanEntry) (sub : Canvas) :
    List (Pos × Rgb) :=
  ((List.range e.num_content_lines) ×ˢ
      ((List.range cw) ×ˢ (List.range lh))).map
    (fun t =>
      (((calc_offsets ((e.lines_so_far + t.1) % total) lpc cw lh).1 + t.2.1,
        (calc_offsets ((e.lines_so_far + t.1) % total) lpc cw lh).2 + t.2.2),
       sub (t.2.1, t.1 * lh + t.2.2)))

/-- One worker rendering of a file (function.rs lines 193-236): resolve the
highlighter unless plain, then render the whole file into a fresh one-column
image.  A lookup failure ends the worker; its error is never seen by the
collector. -/
def workerRender (M : ChunkModel) (ss : SyntaxSet) (opts : Options)
    (total file_index : Nat) (e : PlanEntry) :
    Except String (Canvas × ChunkOutcome) :=
  match (if opts.plain then Except.ok (none : Option String)
         else ss.find_syntax_for_file e.file.path) with
  | .error msg => .error msg
  | .ok _ =>
      .ok (chunkProcess M e.file (parChunkCtx opts total file_index)
        initialCanvas)

/-- The collector loop of the parallel path (function.rs lines 242-270) over
the worker results in their arrival order: fold the outcome into the
aggregates, stitch the private image into the shared canvas, then poll the
interrupt flag.  No result arrives for a file whose worker lookup failed. -/
def parRun (M : ChunkModel) (ss : SyntaxSet) (opts : Options) (flag : Bool)
    (total lpc : Nat) :
    List (Nat × PlanEntry) → RunState → Nat → RunResult
  | [], st, processed => .ok st processed
  | (file_index, e) :: rest, st, processed =>
    match workerRender M ss opts total file_index e with
    | .error _ => parRun M ss opts flag total lpc rest st processed
    | .ok (sub, out) =>
        match (⟨st.line_num + e.num_content_lines,
               max out.longest_line_in_chars st.longest_line_chars,
               out.background,
               applyWrites
                 (copyWrites opts.column_width opts.line_height total lpc e sub)
                 st.canvas⟩ : RunState) with
        | st2 =>
            if flag then .cancelled st2 (processed + 1)
            else parRun M ss opts flag total lpc rest st2 (processed + 1)

/-- Observable phase events of one render invocation. -/
inductive Event where
  | alloc (imgx imgy : Nat)
  | fileRendered (index : Nat)
deriving DecidableEq, Repr

/-- Summary of a successful render: the canvas with its dimensions plus the
statistics render reports through the progress sink. -/
structure RenderValue where
  canvas : Canvas
  imgx : Nat
  imgy : Nat
  longest_line_chars : Nat
  num_ignored : Nat

/-- One fileRendered event per processed file. -/
def processedEvents (processed : Nat) : List Event :=
  (List.range processed).map Event.fileRendered

/-- render (function.rs lines 14-300).  Beyond the inputs of the Rust
signature the embedding takes: the interrupt flag as the constant value the
external atomic holds during the run (it is set once and never cleared,
section 6); the available parallelism (num_cpus::get); and the arrival order
of worker results at the collector channel, the one scheduling choice of the
parallel path.  It returns the phase events beside the result; the canvas
allocation event comes after the line-count check and the dimension
computation but before the theme lookup, exactly as in the source. -/
def render (M : ChunkModel) (content : List SourceFile) (flag : Bool)
    (ss : SyntaxSet) (themes : List String) (opts : Options) (numCpus : Nat)
    (arrivals : List (Nat × PlanEntry)) :
    List Event × Except RenderError RenderValue :=
  match planFiles ss opts.skip_unsyntaxed_files content with
  | .error msg => ([], .error (.syntaxLookup msg))
  | .ok (entries, total_line_count, num_ignored) =>
    if total_line_count = 0 then
      ([], .error (.noRenderableLines entries.length))
    else
      match dimension_compute opts.target_aspect_ratio opts.column_width
          total_line_count opts.line_height opts.force_full_columns with
      | .error msg => ([], .error (.dimensionFailed msg))
      | .ok dim =>
        if themes.contains opts.theme then
          match
            (if max 1 (min (if opts.threads = 0 then numCpus else opts.threads)
                numCpus) < 2 then
              seqRun M ss opts flag total_line_count dim.lines_per_column
                entries.enum ⟨0, 0, none, initialCanvas⟩ 0
            else
              parRun M ss opts flag total_line_count dim.lines_per_column
                arrivals ⟨0, 0, none, initialCanvas⟩ 0) with
          | .ok st processed =>
              (Event.alloc dim.imgx dim.imgy :: processedEvents processed,
               .ok ⟨fillLoop opts.column_width opts.line_height
                      dim.lines_per_column (st.background.getD blackRgb)
                      st.line_num
                      (dim.lines_per_column * dim.required_columns -
                        st.line_num)
                      st.canvas,
                    dim.imgx, dim.imgy, st.longest_line_chars, num_ignored⟩)
          | .cancelled st processed =>
              (Event.alloc dim.imgx dim.imgy :: processedEvents processed,
               .error .cancelled)
          | .lookupFailed msg st processed =>
              (Event.alloc dim.imgx dim.imgy :: processedEvents processed,
               .error (.syntaxLookup msg))
        else
          ([Event.alloc dim.imgx dim.imgy],
           .error (.themeNotFound (themeErrorMessage opts.theme themes)))

/-- With the skip flag unset, the retained entries are every input file at
the running offsets, for any syntax set whatsoever. -/
def plainEntriesFrom : Nat → List SourceFile → List PlanEntry
  | _, [] => []
  | lsf, f :: rest =>
      ⟨f, f.lines.length, lsf⟩ ::
        plainEntriesFrom (lsf + f.lines.length) rest

theorem retainedEntriesFrom_false (ss : SyntaxSet) :
    ∀ (files : List SourceFile) (lsf : Nat),
      retainedEntriesFrom ss false lsf files = plainEntriesFrom lsf files
  | [], lsf => rfl
  | f :: rest, lsf => by
      rw [retainedEntriesFrom, if_neg (by simp [skipsFile]), plainEntriesFrom,
        retainedEntriesFrom_false ss rest (lsf + f.lines.length)]

theorem retainedLineSum_false (ss : SyntaxSet) :
    ∀ (files : List SourceFile),
      retainedLineSum ss false files =
        (files.map (fun f => f.lines.length)).sum
  | [] => rfl
  | f :: rest => by
      rw [retainedLineSum, if_neg (by simp [skipsFile]), List.map_cons,
        List.sum_cons, retainedLineSum_false ss rest]

theorem skippedCount_eq_filter_length (ss : SyntaxSet) (sk : Bool) :
    ∀ (files : List SourceFile),
      skippedCount ss sk files = (files.filter (skipsFile ss sk)).length
  | [] => rfl
  | f :: rest => by
      by_cases hskip : skipsFile ss sk f = true
      · rw [skippedCount, if_pos hskip, List.filter_cons_of_pos hskip,
          List.length_cons, skippedCount_eq_filter_length ss sk rest]
        omega
      · rw [skippedCount, if_neg hskip,
          List.filter_cons_of_neg (by simpa using hskip),
          skippedCount_eq_filter_length ss sk rest]

/-- C10: with the skip flag unset, the counting phase consults no syntax
lookup, so for every syntax set, even one whose every lookup fails, planning
succeeds, retains every input file with its full line count at the running
offset, counts every input line, and ignores no file. -/
theorem planFiles_skip_unset_never_consults_lookup (ss : SyntaxSet)
    (content : List SourceFile) :
    planFiles ss false content =
      .ok (plainEntriesFrom 0 content,
           (content.map (fun f => f.lines.length)).sum, 0) := by
  rw [planFiles, planLoop_no_skip ss content 0 0 0,
    retainedEntriesFrom_false, retainedLineSum_false]
  simp

/-- C7: the retained entries of a successful plan carry offsets equal to the
sum of the line counts of the preceding retained files, occupy non-overlapping
input-ordered global line ranges, their counts sum to the total, and the total
is the full input line count minus the skipped lines. -/
theorem plan_entries_partition_lines (ss : SyntaxSet) (sk : Bool)
    (content : List SourceFile) (entries : List PlanEntry) (total nig : Nat)
    (hplan : planFiles ss sk content = .ok (entries, total, nig)) :
    (∀ (k : Nat) (hk : k < entries.length),
        entries[k].lines_so_far =
          ((entries.take k).map PlanEntry.num_content_lines).sum) ∧
    (∀ (k l : Nat) (hk : k < entries.length) (hl : l < entries.length),
        k < l →
        entries[k].lines_so_far + entries[k].num_content_lines ≤
          entries[l].lines_so_far) ∧
    (entries.map PlanEntry.num_content_lines).sum = total ∧
    total = (content.map (fun f => f.lines.length)).sum -
      skippedLineSum ss sk content := by
  obtain ⟨hent, htot, hnig⟩ := planLoop_ok_spec ss sk content 0 0 0
    entries total nig hplan
  subst hent
  have hch := retainedEntriesFrom_chained ss sk content 0
  refine ⟨?_, ?_, ?_, ?_⟩
  · intro k hk
    have := chained_getElem_lines_so_far _ 0 hch k hk
    simpa using this
  · intro k l hk hl hkl
    exact chained_disjoint _ 0 hch k l hk hl hkl
  · rw [retainedEntriesFrom_sum]
    omega
  · have := retained_add_skipped ss sk content
    omega

/-- C5: under the skip flag, a file whose name resolves to no syntax is
excluded from the retained sequence handed to the chunk renderer, its lines
are excluded from the total (the retained counts alone sum to it), and the
ignored counter counts exactly the skipped files, each once. -/
theorem plan_drops_unsyntaxed_files (ss : SyntaxSet)
    (content : List SourceFile) (entries : List PlanEntry) (total nig : Nat)
    (hplan : planFiles ss true content = .ok (entries, total, nig)) :
    (∀ e ∈ entries, ¬ ss.find_syntax_for_file e.file.path = .ok none) ∧
    (entries.map PlanEntry.num_content_lines).sum = total ∧
    nig = (content.filter (skipsFile ss true)).length ∧
    (∀ f ∈ content, ss.find_syntax_for_file f.path = .ok none →
      f ∈ content.filter (skipsFile ss true)) := by
  obtain ⟨hent, htot, hnig⟩ := planLoop_ok_spec ss true content 0 0 0
    entries total nig hplan
  refine ⟨?_, ?_, ?_, ?_⟩
  · intro e hemem hlook
    subst hent
    obtain ⟨hskip, _, _⟩ := retainedEntriesFrom_mem ss true content 0 e hemem
    rw [skipsFile, hlook] at hskip
    simp at hskip
  · subst hent
    rw [retainedEntriesFrom_sum]
    omega
  · rw [hnig, skippedCount_eq_filter_length]
    omega
  · intro f hf hlook
    apply List.mem_filter.mpr
    exact ⟨hf, by simp [skipsFile, hlook]⟩

/-- C2: when the counting phase finds no renderable line, render fails with
NoRenderableLines over the retained file count; the empty event trace shows
no allocation event, hence no canvas allocation and no use of the dimension
computation, preceded the failure. -/
theorem render_no_renderable_lines_before_alloc
    (M : ChunkModel) (content : List SourceFile) (flag : Bool)
    (ss : SyntaxSet) (themes : List String) (opts : Options) (numCpus : Nat)
    (arrivals : List (Nat × PlanEntry)) (entries : List PlanEntry) (nig : Nat)
    (hplan : planFiles ss opts.skip_unsyntaxed_files content =
      .ok (entries, 0, nig)) :
    render M content flag ss themes opts numCpus arrivals =
      ([], .error (.noRenderableLines entries.length)) := by
  rw [render, hplan]
  simp

/-- A theme listing names at least its first theme, verbatim, inside the
ThemeNotFound message. -/
theorem themeErrorMessage_lists_first (theme k : String) (rest : List String) :
    k.data <:+: (themeErrorMessage theme (k :: rest)).data := by
  rcases rest with _ | ⟨t, ts⟩
  · refine ⟨("Could not find theme " ++ quoteStr theme ++
      ", must be one of " ++ "\"").data, "\"".data, ?_⟩
    simp [themeErrorMessage, joinStrings, quoteStr, List.append_assoc]
  · refine ⟨("Could not find theme " ++ quoteStr theme ++
      ", must be one of " ++ "\"").data,
      ("\"" ++ ", " ++ joinStrings ", " ((t :: ts).map quoteStr)).data, ?_⟩
    simp [themeErrorMessage, joinStrings, quoteStr, List.append_assoc]

/-- C6: a theme name absent from the loaded theme set makes render fail with
ThemeNotFound right after allocation: the trace carries no fileRendered
event, so no rendering preceded the failure, and whenever the theme set is
non-empty the message quotes at least one valid theme name verbatim. -/
theorem render_theme_not_found_before_rendering
    (M : ChunkModel) (content : List SourceFile) (flag : Bool)
    (ss : SyntaxSet) (themes : List String) (opts : Options) (numCpus : Nat)
    (arrivals : List (Nat × PlanEntry)) (entries : List PlanEntry)
    (total nig : Nat) (dim : Dimension)
    (hplan : planFiles ss opts.skip_unsyntaxed_files content =
      .ok (entries, total, nig))
    (htotal : total ≠ 0)
    (hdim : dimension_compute opts.target_aspect_ratio opts.column_width
      total opts.line_height opts.force_full_columns = .ok dim)
    (habsent : themes.contains opts.theme = false) :
    render M content flag ss themes opts numCpus arrivals =
      ([Event.alloc dim.imgx dim.imgy],
       .error (.themeNotFound (themeErrorMessage opts.theme themes))) ∧
    (∀ e ∈ (render M content flag ss themes opts numCpus arrivals).1,
      ∀ i, e ≠ Event.fileRendered i) ∧
    (themes ≠ [] → ∃ k ∈ themes,
      k.data <:+: (themeErrorMessage opts.theme themes).data) := by
  have hrender : render M content flag ss themes opts numCpus arrivals =
      ([Event.alloc dim.imgx dim.imgy],
       .error (.themeNotFound (themeErrorMessage opts.theme themes))) := by
    rw [render, hplan]
    simp [htotal, hdim, habsent]
    intro hmem
    exact absurd hmem (by simpa using habsent)
  refine ⟨hrender, ?_, ?_⟩
  · intro e hemem i
    rw [hrender] at hemem
    rcases List.mem_cons.mp hemem with he | he
    · subst he
      intro hc
      cases hc
    · cases he
  · intro hne
    rcases themes with _ | ⟨k, rest⟩
    · exact absurd rfl hne
    · exact ⟨k, List.mem_cons_self _ _, themeErrorMessage_lists_first _ k rest⟩

/-- A chunk model that paints nothing and reports empty outcomes. -/
def emptyChunkModel : ChunkModel :=
  ⟨fun _ _ _ _ _ => none, fun _ _ => ⟨0, none⟩⟩

/-- A syntax set resolving every file name to no syntax, without failing. -/
def noSyntaxSet : SyntaxSet := ⟨fun _ => .ok none⟩

/-- A syntax set knowing exactly the file a.rs. -/
def rsSyntaxSet : SyntaxSet :=
  ⟨fun p => .ok (if p = "a.rs" then some "Rust" else none)⟩

/-- Sample options: 8 px columns, 2 px lines, square target ratio, one
thread, gruvbox theme, no skipping. -/
def sampleOptions : Options :=
  ⟨8, 2, 1, 1, none, none, false, false, "gruvbox", false, false, false, 1⟩

def sampleFileA : SourceFile := ⟨"a.rs", ["line one"]⟩

def sampleFileB : SourceFile := ⟨"b.txt", ["left", "right"]⟩

theorem render_no_renderable_lines_before_alloc_witness :
    render emptyChunkModel [⟨"a.rs", []⟩] false noSyntaxSet ["gruvbox"]
        sampleOptions 1 [] =
      ([], .error (.noRenderableLines 1)) :=
  render_no_renderable_lines_before_alloc emptyChunkModel [⟨"a.rs", []⟩]
    false noSyntaxSet ["gruvbox"] sampleOptions 1 []
    [⟨⟨"a.rs", []⟩, 0, 0⟩] 0 rfl

theorem render_theme_not_found_before_rendering_witness :
    render emptyChunkModel [sampleFileA] false noSyntaxSet ["Solarized"]
        sampleOptions 1 [] =
      ([Event.alloc 8 2],
       .error (.themeNotFound (themeErrorMessage "gruvbox" ["Solarized"]))) ∧
    (∃ k ∈ ["Solarized"],
      k.data <:+: (themeErrorMessage "gruvbox" ["Solarized"]).data) := by
  have h := render_theme_not_found_before_rendering emptyChunkModel
    [sampleFileA] false noSyntaxSet ["Solarized"] sampleOptions 1 []
    [⟨sampleFileA, 1, 0⟩] 1 0 ⟨8, 2, 1, 1⟩
    rfl (by decide) rfl (by decide)
  exact ⟨h.1, h.2.2 (by decide)⟩

theorem plan_entries_partition_lines_witness :
    (([⟨sampleFileA, 1, 0⟩] : List PlanEntry).map
      PlanEntry.num_content_lines).sum = 1 :=
  (plan_entries_partition_lines rsSyntaxSet true [sampleFileA, sampleFileB]
    [⟨sampleFileA, 1, 0⟩] 1 1 rfl).2.2.1

theorem plan_drops_unsyntaxed_files_witness :
    (1 : Nat) = (([sampleFileA, sampleFileB].filter
      (skipsFile rsSyntaxSet true))).length :=
  (plan_drops_unsyntaxed_files rsSyntaxSet [sampleFileA, sampleFileB]
    [⟨sampleFileA, 1, 0⟩] 1 1 rfl).2.2.1

/-- The style context both paths hand the chunk renderer for the file at
retained index fi: identical fields, since line_num and lines_per_column are
placement only. -/
def entryStyle (opts : Options) (total fi : Nat) : StyleContext :=
  ⟨opts.column_width, opts.line_height, total,
   opts.highlight_truncated_lines, opts.fg_color, opts.bg_color, fi,
   opts.color_modulation⟩

theorem seqChunkCtx_style (opts : Options) (total lpc fi ln : Nat) :
    (seqChunkCtx opts total lpc fi ln).style = entryStyle opts total fi := rfl

theorem parChunkCtx_style (opts : Options) (total fi : Nat) :
    (parChunkCtx opts total fi).style = entryStyle opts total fi := rfl

/-- Sum of the line counts of a list of enumerated entries. -/
def entriesLineSum (entries : List (Nat × PlanEntry)) : Nat :=
  (entries.map (fun pe => pe.2.num_content_lines)).sum

/-- The longest-line aggregate left fold, in processing order. -/
def foldLongest (M : ChunkModel) (opts : Options) (total : Nat)
    (entries : List (Nat × PlanEntry)) (acc : Nat) : Nat :=
  entries.foldl
    (fun acc pe =>
      max (M.outcome (entryStyle opts total pe.1) pe.2.file).longest_line_in_chars
        acc) acc

/-- The background aggregate: each outcome overwrites it, so it ends at the
outcome of the last processed file (or stays put with no file). -/
def foldBackground (M : ChunkModel) (opts : Options) (total : Nat)
    (entries : List (Nat × PlanEntry)) (acc : Option Rgb) : Option Rgb :=
  entries.foldl
    (fun _ pe => (M.outcome (entryStyle opts total pe.1) pe.2.file).background)
    acc

/-- The chunk write blocks of the sequential path, at the running counter. -/
def seqBlocks (M : ChunkModel) (opts : Options) (total lpc : Nat) :
    Nat → List (Nat × PlanEntry) → List (List (Pos × Rgb))
  | _, [] => []
  | ln, (fi, e) :: rest =>
      chunkWrites M e.file (seqChunkCtx opts total lpc fi ln) ::
        seqBlocks M opts total lpc (ln + e.num_content_lines) rest

/-- The stitch write blocks of the collector, in arrival order. -/
def parBlocks (M : ChunkModel) (opts : Options) (total lpc : Nat)
    (arrivals : List (Nat × PlanEntry)) : List (List (Pos × Rgb)) :=
  arrivals.map
    (fun pe =>
      copyWrites opts.column_width opts.line_height total lpc pe.2
        (chunkProcess M pe.2.file (parChunkCtx opts total pe.1)
          initialCanvas).1)

/-- Success characterization of the sequential path: with the flag clear and
every highlighter lookup succeeding, it processes every entry, its counter
advances by the entry line counts, the aggregates fold as the source folds
them, and the canvas receives the chunk write blocks in input order. -/
theorem seqRun_ok (M : ChunkModel) (ss : SyntaxSet) (opts : Options)
    (total lpc : Nat) :
    ∀ (entries : List (Nat × PlanEntry)) (st : RunState) (p : Nat),
      (∀ pe ∈ entries, opts.plain = false →
        ∃ syn, ss.find_syntax_for_file pe.2.file.path = .ok syn) →
      seqRun M ss opts false total lpc entries st p =
        .ok ⟨st.line_num + entriesLineSum entries,
             foldLongest M opts total entries st.longest_line_chars,
             foldBackground M opts total entries st.background,
             applyWrites (seqBlocks M opts total lpc st.line_num entries).flatten
               st.canvas⟩
          (p + entries.length)
  | [], st, p, hlk => by
      simp [seqRun, entriesLineSum, foldLongest, foldBackground, seqBlocks,
        applyWrites]
  | (fi, e) :: rest, st, p, hlk => by
      rw [seqRun, if_neg (by simp)]
      rcases hres : (if opts.plain then Except.ok (none : Option String)
          else ss.find_syntax_for_file e.file.path) with msg | syn
      · exfalso
        by_cases hp : opts.plain = true
        · rw [if_pos hp] at hres
          cases hres
        · rcases hlk (fi, e) (List.mem_cons_self _ _) (by simpa using hp)
            with ⟨syn, hsyn⟩
          rw [if_neg hp, hsyn] at hres
          cases hres
      · have ih := seqRun_ok M ss opts total lpc rest
          ⟨st.line_num + e.num_content_lines,
           max (M.outcome (entryStyle opts total fi) e.file).longest_line_in_chars
             st.longest_line_chars,
           (M.outcome (entryStyle opts total fi) e.file).background,
           applyWrites (chunkWrites M e.file
             (seqChunkCtx opts total lpc fi st.line_num)) st.canvas⟩
          (p + 1)
          (fun pe hpe hpl => hlk pe (List.mem_cons_of_mem _ hpe) hpl)
        simp only [chunkProcess, seqChunkCtx_style]
        rw [ih]
        simp only [entriesLineSum, foldLongest, foldBackground, seqBlocks,
          List.map_cons, List.sum_cons, List.foldl_cons, List.flatten_cons,
          applyWrites_append, seqChunkCtx_style, List.length_cons]
        congr 1
        · congr 1 <;> omega
        · omega

/-- Immediate cancellation of the sequential path: with the flag set before
the run, the very first iteration bails, leaving the state untouched and
zero files processed. -/
theorem seqRun_flag_cancels_immediately (M : ChunkModel) (ss : SyntaxSet)
    (opts : Options) (total lpc fi : Nat) (e : PlanEntry)
    (rest : List (Nat × PlanEntry)) (st : RunState) (p : Nat) :
    seqRun M ss opts true total lpc ((fi, e) :: rest) st p =
      .cancelled st p := by
  rw [seqRun]
  simp

/-- Success characterization of the collector loop: with the flag clear and
every worker lookup succeeding, it stitches every arrival, in arrival
order. -/
theorem parRun_ok (M : ChunkModel) (ss : SyntaxSet) (opts : Options)
    (total lpc : Nat) :
    ∀ (arrivals : List (Nat × PlanEntry)) (st : RunState) (p : Nat),
      (∀ pe ∈ arrivals, opts.plain = false →
        ∃ syn, ss.find_syntax_for_file pe.2.file.path = .ok syn) →
      parRun M ss opts false total lpc arrivals st p =
        .ok ⟨st.line_num + entriesLineSum arrivals,
             foldLongest M opts total arrivals st.longest_line_chars,
             foldBackground M opts total arrivals st.background,
             applyWrites (parBlocks M opts total lpc arrivals).flatten
               st.canvas⟩
          (p + arrivals.length)
  | [], st, p, hlk => by
      simp [parRun, entriesLineSum, foldLongest, foldBackground, parBlocks,
        applyWrites]
  | (fi, e) :: rest, st, p, hlk => by
      rw [parRun, workerRender]
      rcases hres : (if opts.plain then Except.ok (none : Option String)
          else ss.find_syntax_for_file e.file.path) with msg | syn
      · exfalso
        by_cases hp : opts.plain = true
        · rw [if_pos hp] at hres
          cases hres
        · rcases hlk (fi, e) (List.mem_cons_self _ _) (by simpa using hp)
            with ⟨syn, hsyn⟩
          rw [if_neg hp, hsyn] at hres
          cases hres
      · have ih := parRun_ok M ss opts total lpc rest
          ⟨st.line_num + e.num_content_lines,
           max (M.outcome (entryStyle opts total fi) e.file).longest_line_in_chars
             st.longest_line_chars,
           (M.outcome (entryStyle opts total fi) e.file).background,
           applyWrites (copyWrites opts.column_width opts.line_height total
             lpc e (chunkProcess M e.file (parChunkCtx opts total fi)
               initialCanvas).1) st.canvas⟩
          (p + 1)
          (fun pe hpe hpl => hlk pe (List.mem_cons_of_mem _ hpe) hpl)
        simp only [chunkProcess, parChunkCtx_style] at ih
        simp only [chunkProcess, parChunkCtx_style, Bool.false_eq_true,
          if_false]
        rw [ih]
        simp only [entriesLineSum, foldLongest, foldBackground, parBlocks,
          List.map_cons, List.sum_cons, List.foldl_cons, List.flatten_cons,
          applyWrites_append, chunkProcess, parChunkCtx_style,
          List.length_cons]
        congr 1
        · congr 1 <;> omega
        · omega

/-- Cancellation of the collector with the flag already set: the first
arrival is still stitched and counted before the poll, then the loop bails:
exactly one file processed. -/
theorem parRun_flag_cancels_after_one (M : ChunkModel) (ss : SyntaxSet)
    (opts : Options) (total lpc fi : Nat) (e : PlanEntry)
    (rest : List (Nat × PlanEntry)) (st : RunState) (p : Nat)
    (hlk : opts.plain = false →
      ∃ syn, ss.find_syntax_for_file e.file.path = .ok syn) :
    ∃ st2, parRun M ss opts true total lpc ((fi, e) :: rest) st p =
      .cancelled st2 (p + 1) := by
  rw [parRun, workerRender]
  rcases hres : (if opts.plain then Except.ok (none : Option String)
      else ss.find_syntax_for_file e.file.path) with msg | syn
  · exfalso
    by_cases hp : opts.plain = true
    · rw [if_pos hp] at hres
      cases hres
    · rcases hlk (by simpa using hp) with ⟨syn, hsyn⟩
      rw [if_neg hp, hsyn] at hres
      cases hres
  · refine ⟨⟨st.line_num + e.num_content_lines,
      max (chunkProcess M e.file (parChunkCtx opts total fi)
        initialCanvas).2.longest_line_in_chars st.longest_line_chars,
      (chunkProcess M e.file (parChunkCtx opts total fi)
        initialCanvas).2.background,
      applyWrites (copyWrites opts.column_width opts.line_height total lpc e
        (chunkProcess M e.file (parChunkCtx opts total fi) initialCanvas).1)
        st.canvas⟩, ?_⟩
    rfl

theorem plan_total_pos_entries_ne_nil {ss : SyntaxSet} {sk : Bool}
    {content : List SourceFile} {entries : List PlanEntry} {total nig : Nat}
    (hplan : planFiles ss sk content = .ok (entries, total, nig))
    (htotal : total ≠ 0) : entries ≠ [] := by
  intro hnil
  obtain ⟨hent, htot, _⟩ := planLoop_ok_spec ss sk content 0 0 0 entries
    total nig hplan
  have hsum := retainedEntriesFrom_sum ss sk content 0
  rw [← hent, hnil] at hsum
  simp at hsum
  omega

/-- Cancellation of the sequential path on any non-empty entry list. -/
theorem seqRun_flag_cancels (M : ChunkModel) (ss : SyntaxSet)
    (opts : Options) (total lpc : Nat) (entries : List (Nat × PlanEntry))
    (st : RunState) (p : Nat) (hne : entries ≠ []) :
    seqRun M ss opts true total lpc entries st p = .cancelled st p := by
  rcases List.exists_cons_of_ne_nil hne with ⟨a, t, hat⟩
  obtain ⟨fi, e⟩ := a
  rw [hat]
  exact seqRun_flag_cancels_immediately M ss opts total lpc fi e t st p

theorem threads_update_column_width (o : Options) (n : Nat) :
    ({o with threads := n} : Options).column_width = o.column_width := rfl

theorem threads_update_line_height (o : Options) (n : Nat) :
    ({o with threads := n} : Options).line_height = o.line_height := rfl

theorem threads_update_target (o : Options) (n : Nat) :
    ({o with threads := n} : Options).target_aspect_ratio =
      o.target_aspect_ratio := rfl

theorem threads_update_threads (o : Options) (n : Nat) :
    ({o with threads := n} : Options).threads = n := rfl

theorem threads_update_fg (o : Options) (n : Nat) :
    ({o with threads := n} : Options).fg_color = o.fg_color := rfl

theorem threads_update_bg (o : Options) (n : Nat) :
    ({o with threads := n} : Options).bg_color = o.bg_color := rfl

theorem threads_update_truncated (o : Options) (n : Nat) :
    ({o with threads := n} : Options).highlight_truncated_lines =
      o.highlight_truncated_lines := rfl

theorem threads_update_display (o : Options) (n : Nat) :
    ({o with threads := n} : Options).display_to_be_processed_file =
      o.display_to_be_processed_file := rfl

theorem threads_update_theme (o : Options) (n : Nat) :
    ({o with threads := n} : Options).theme = o.theme := rfl

theorem threads_update_force (o : Options) (n : Nat) :
    ({o with threads := n} : Options).force_full_columns =
      o.force_full_columns := rfl

theorem threads_update_plain (o : Options) (n : Nat) :
    ({o with threads := n} : Options).plain = o.plain := rfl

theorem threads_update_skip (o : Options) (n : Nat) :
    ({o with threads := n} : Options).skip_unsyntaxed_files =
      o.skip_unsyntaxed_files := rfl

theorem threads_update_modulation (o : Options) (n : Nat) :
    ({o with threads := n} : Options).color_modulation =
      o.color_modulation := rfl

/-- C3: with the interrupt flag set before render starts, the sequential path
(threads forced to 1) cancels having rendered no chunk: its trace carries the
allocation event and zero fileRendered events.  The parallel path (threads
forced to N with two or more cpus) stitches exactly the first arrived result
and then cancels: its trace carries exactly one fileRendered event.  On 100
input files that is at least one and strictly fewer than 100 processed. -/
theorem render_cancelled_when_flag_preset
    (M : ChunkModel) (content : List SourceFile) (ss : SyntaxSet)
    (themes : List String) (opts : Options) (numCpus N : Nat)
    (arrivals : List (Nat × PlanEntry)) (entries : List PlanEntry)
    (total nig : Nat) (dim : Dimension)
    (hplan : planFiles ss opts.skip_unsyntaxed_files content =
      .ok (entries, total, nig))
    (htotal : total ≠ 0)
    (hdim : dimension_compute opts.target_aspect_ratio opts.column_width
      total opts.line_height opts.force_full_columns = .ok dim)
    (hth : themes.contains opts.theme = true)
    (h1 : opts.threads = 1) (hcpu : 1 ≤ numCpus) (hN : 2 ≤ N)
    (hcpu2 : 2 ≤ numCpus) (harrne : arrivals ≠ [])
    (hlk : ∀ pe ∈ arrivals, opts.plain = false →
      ∃ syn, ss.find_syntax_for_file pe.2.file.path = .ok syn) :
    render M content true ss themes opts numCpus arrivals =
      ([Event.alloc dim.imgx dim.imgy], .error .cancelled) ∧
    render M content true ss themes {opts with threads := N} numCpus
        arrivals =
      ([Event.alloc dim.imgx dim.imgy, Event.fileRendered 0],
       .error .cancelled) := by
  have hmem : opts.theme ∈ themes := by simpa using hth
  constructor
  · rw [render, hplan]
    have hseq : seqRun M ss opts true total dim.lines_per_column
        entries.enum ⟨0, 0, none, initialCanvas⟩ 0 =
        .cancelled ⟨0, 0, none, initialCanvas⟩ 0 := by
      apply seqRun_flag_cancels
      have hne := plan_total_pos_entries_ne_nil hplan htotal
      intro hnil
      apply hne
      rcases entries with _ | ⟨a, t⟩
      · rfl
      · cases hnil
    have hthreads : max 1 (min (if opts.threads = 0 then numCpus
        else opts.threads) numCpus) < 2 := by
      rw [h1]
      simp only [if_neg (by omega : ¬ (1 : Nat) = 0)]
      omega
    simp [htotal, hdim, hmem, hthreads, hseq, processedEvents]
  · rw [render]
    rw [threads_update_skip, hplan]
    rw [threads_update_target, threads_update_column_width,
      threads_update_line_height, threads_update_force]
    rcases List.exists_cons_of_ne_nil harrne with ⟨a, t, hat⟩
    obtain ⟨fi, e⟩ := a
    subst hat
    have hpar := parRun_flag_cancels_after_one M ss
      {opts with threads := N} total dim.lines_per_column fi e t
      ⟨0, 0, none, initialCanvas⟩ 0
      (by
        rw [threads_update_plain]
        intro hpl
        exact hlk (fi, e) (List.mem_cons_self _ _) hpl)
    rcases hpar with ⟨st2, hpar⟩
    have hth2 : ¬ (max 1 (min (if N = 0 then numCpus else N) numCpus) < 2) := by
      simp only [if_neg (by omega : ¬ N = 0)]
      omega
    rw [threads_update_theme]
    simp only [threads_update_threads]
    simp [htotal, hdim, hmem, hth2, hpar, processedEvents,
      List.range_succ]

theorem lastWrite_mem {ws : List (Pos × Rgb)} {q : Pos} {v : Rgb}
    (h : lastWrite ws q = some v) : (q, v) ∈ ws := by
  rw [lastWrite] at h
  rcases hfind : ws.reverse.find? (fun w => w.1 == q) with _ | w
  · rw [hfind] at h
    cases h
  · rw [hfind] at h
    simp at h
    obtain ⟨a, b⟩ := w
    have hpa := List.find?_some hfind
    have hq : a = q := by simpa using hpa
    have hmem := List.mem_reverse.mp (List.mem_of_find?_eq_some hfind)
    subst hq
    have hv : b = v := by simpa using h
    subst hv
    exact hmem

/-- A write list carrying one constant color writes that color to any
position it touches, whatever the order. -/
theorem lastWrite_const {ws : List (Pos × Rgb)} {q : Pos} {bg : Rgb}
    (hconst : ∀ w ∈ ws, w.2 = bg) (hmem : q ∈ ws.map Prod.fst) :
    lastWrite ws q = some bg := by
  rcases hfind : ws.reverse.find? (fun w => w.1 == q) with _ | w
  · exfalso
    rw [List.find?_eq_none] at hfind
    rcases List.mem_map.mp hmem with ⟨w, hw, hwq⟩
    exact hfind w (List.mem_reverse.mpr hw) (by simp [hwq])
  · have hw := List.mem_reverse.mp (List.mem_of_find?_eq_some hfind)
    rw [lastWrite, hfind]
    simp [hconst w hw]

theorem lastWrite_flatten_none {blocks : List (List (Pos × Rgb))} {q : Pos}
    (h : ∀ b ∈ blocks, q ∉ b.map Prod.fst) :
    lastWrite blocks.flatten q = none := by
  apply lastWrite_eq_none
  intro hq
  rcases List.mem_map.mp hq with ⟨w, hw, hwq⟩
  rcases List.mem_flatten.mp hw with ⟨b, hb, hwb⟩
  exact h b hb (hwq ▸ List.mem_map.mpr ⟨w, hwb, rfl⟩)

theorem lastWrite_flatten_of_unique :
    ∀ (blocks : List (List (Pos × Rgb))) (k : Nat) (hk : k < blocks.length)
      (q : Pos),
      (∀ (j : Nat) (hj : j < blocks.length), j ≠ k →
        q ∉ (blocks[j].map Prod.fst)) →
      lastWrite blocks.flatten q = lastWrite blocks[k] q
  | [], k, hk, q => by cases hk
  | b :: rest, 0, hk, q => by
      intro hothers
      rw [List.flatten_cons, lastWrite_append]
      have hnone : lastWrite rest.flatten q = none := by
        apply lastWrite_flatten_none
        intro b2 hb2
        rcases List.mem_iff_getElem.mp hb2 with ⟨j, hj, hjval⟩
        have := hothers (j + 1) (by simpa using Nat.succ_lt_succ hj)
          (by omega)
        simpa [hjval] using this
      rw [hnone]
      rfl
  | b :: rest, k + 1, hk, q => by
      intro hothers
      rw [List.flatten_cons, lastWrite_append]
      have hb : lastWrite b q = none := by
        apply lastWrite_eq_none
        have := hothers 0 (by simp) (by omega)
        simpa using this
      rw [hb]
      have ih := lastWrite_flatten_of_unique rest k
        (by simpa using Nat.lt_of_succ_lt_succ hk) q
        (fun j hj hjk => by
          have := hothers (j + 1) (by simpa using Nat.succ_lt_succ hj)
            (by omega)
          simpa using this)
      simp [ih]

theorem chained_num_eq :
    ∀ (entries : List PlanEntry) (lsf : Nat), Chained lsf entries →
      ∀ (k : Nat) (hk : k < entries.length),
        entries[k].num_content_lines = entries[k].file.lines.length
  | [], lsf, _, k, hk => by cases hk
  | e :: rest, lsf, hch, 0, hk => hch.2.1
  | e :: rest, lsf, hch, k + 1, hk => by
      simpa using chained_num_eq rest (lsf + e.num_content_lines) hch.2.2 k
        (by simpa using Nat.lt_of_succ_lt_succ hk)

/-- The pixel of the private one-column worker image at relative line l,
column x, row h: the model color there, black where the model paints nothing
(RgbImage::new zero fills). -/
theorem parSub_value (M : ChunkModel) (opts : Options) (total fi : Nat)
    (f : SourceFile) (l x h : Nat) (hl : l < f.lines.length)
    (hx : x < opts.column_width) (hh : h < opts.line_height)
    (hlen : f.lines.length ≤ total) :
    (chunkProcess M f (parChunkCtx opts total fi) initialCanvas).1
      (x, l * opts.line_height + h) =
    ((M.pixel (entryStyle opts total fi) f l x h).getD blackRgb) := by
  have hlt : l < total := Nat.lt_of_lt_of_le hl hlen
  have htotal : 0 < total := Nat.lt_of_le_of_lt (Nat.zero_le l) hlt
  have hpos : ((x, l * opts.line_height + h) : Pos) =
      slotPos total opts.column_width opts.line_height (0 + l) x h := by
    simp [slotPos, calc_offsets, Nat.div_eq_of_lt hlt, Nat.mod_eq_of_lt hlt]
  rw [chunkProcess]
  simp only
  rw [applyWrites_eq_lastWrite]
  rcases hpix : M.pixel (entryStyle opts total fi) f l x h with _ | c
  · have hnone : lastWrite (chunkWrites M f (parChunkCtx opts total fi))
        (x, l * opts.line_height + h) = none := by
      apply lastWrite_eq_none
      intro hqmem
      rcases List.mem_map.mp hqmem with ⟨w, hw, hwq⟩
      obtain ⟨p, c⟩ := w
      rcases mem_chunkWrites.mp hw with ⟨l2, x2, h2, hl2, hx2, hh2, hpix2, hp2⟩
      simp only [parChunkCtx_style] at hpix2
      simp only [parChunkCtx] at hx2 hh2 hp2
      simp only at hwq
      have heq : slotPos total opts.column_width opts.line_height (0 + l2)
          x2 h2 = slotPos total opts.column_width opts.line_height (0 + l)
          x h := by
        rw [← hp2, hwq, hpos]
      obtain ⟨hg, hxe, hhe⟩ := slotPos_inj htotal hx2 hx hh2 hh heq
      have hleq : l2 = l := by omega
      rw [hleq, hxe, hhe] at hpix2
      rw [hpix2] at hpix
      cases hpix
    rw [hnone]
    rfl
  · have hmem : (((x, l * opts.line_height + h) : Pos), c) ∈
        chunkWrites M f (parChunkCtx opts total fi) := by
      apply mem_chunkWrites.mpr
      exact ⟨l, x, h, hl, hx, hh, hpix, hpos⟩
    rw [lastWrite_eq_some (chunkWrites_nodup_fst htotal) hmem]
    rfl

/-- The collector stitch of one file, write by write: the pixel (l, x, h)
lands in the slot of global line lines_so_far + l carrying the model color,
black where the model painted nothing. -/
def pixelCopyBlock (M : ChunkModel) (opts : Options) (total lpc fi : Nat)
    (e : PlanEntry) : List (Pos × Rgb) :=
  ((List.range e.num_content_lines) ×ˢ
      ((List.range opts.column_width) ×ˢ (List.range opts.line_height))).map
    (fun t =>
      (slotPos lpc opts.column_width opts.line_height
        (e.lines_so_far + t.1) t.2.1 t.2.2,
       (M.pixel (entryStyle opts total fi) e.file t.1 t.2.1 t.2.2).getD
         blackRgb))

theorem copyWrites_eq_pixelCopyBlock (M : ChunkModel) (opts : Options)
    (total lpc fi : Nat) (e : PlanEntry)
    (hofs : e.lines_so_far + e.num_content_lines ≤ total)
    (hn : e.num_content_lines = e.file.lines.length) :
    copyWrites opts.column_width opts.line_height total lpc e
      (chunkProcess M e.file (parChunkCtx opts total fi) initialCanvas).1 =
    pixelCopyBlock M opts total lpc fi e := by
  rw [copyWrites, pixelCopyBlock]
  apply List.map_congr_left
  rintro ⟨l, x, h⟩ ht
  have hb := List.mem_product.mp ht
  have hb2 := List.mem_product.mp hb.2
  have hl : l < e.num_content_lines := List.mem_range.mp hb.1
  have hx := List.mem_range.mp hb2.1
  have hh := List.mem_range.mp hb2.2
  have hmod : (e.lines_so_far + l) % total = e.lines_so_far + l :=
    Nat.mod_eq_of_lt (by omega)
  rw [parSub_value M opts total fi e.file l x h (by omega) hx hh (by omega)]
  simp [slotPos, hmod]

theorem mem_pixelCopyBlock {M : ChunkModel} {opts : Options}
    {total lpc fi : Nat} {e : PlanEntry} {p : Pos} {c : Rgb} :
    (p, c) ∈ pixelCopyBlock M opts total lpc fi e ↔
    ∃ l x h, l < e.num_content_lines ∧ x < opts.column_width ∧
      h < opts.line_height ∧
      c = (M.pixel (entryStyle opts total fi) e.file l x h).getD blackRgb ∧
      p = slotPos lpc opts.column_width opts.line_height
        (e.lines_so_far + l) x h := by
  constructor
  · intro hmem
    rcases List.mem_map.mp hmem with ⟨t, ht, htval⟩
    obtain ⟨l, x, h⟩ := t
    have hb := List.mem_product.mp ht
    have hb2 := List.mem_product.mp hb.2
    simp only [Prod.mk.injEq] at htval
    exact ⟨l, x, h, List.mem_range.mp hb.1, List.mem_range.mp hb2.1,
      List.mem_range.mp hb2.2, htval.2.symm, htval.1.symm⟩
  · rintro ⟨l, x, h, hl, hx, hh, hc, hp⟩
    apply List.mem_map.mpr
    refine ⟨(l, x, h), List.mem_product.mpr ⟨List.mem_range.mpr hl,
      List.mem_product.mpr ⟨List.mem_range.mpr hx, List.mem_range.mpr hh⟩⟩, ?_⟩
    rw [← hp, ← hc]

theorem pixelCopyBlock_nodup_fst {M : ChunkModel} {opts : Options}
    {total lpc fi : Nat} {e : PlanEntry} (hlpc : 0 < lpc) :
    ((pixelCopyBlock M opts total lpc fi e).map Prod.fst).Nodup := by
  rw [pixelCopyBlock, List.map_map]
  apply List.Nodup.map_on
  · rintro ⟨l1, x1, h1⟩ hm1 ⟨l2, x2, h2⟩ hm2 heq
    have hb1 := List.mem_product.mp hm1
    have hb12 := List.mem_product.mp hb1.2
    have hb2 := List.mem_product.mp hm2
    have hb22 := List.mem_product.mp hb2.2
    obtain ⟨hg, hxe, hhe⟩ := slotPos_inj hlpc
      (List.mem_range.mp hb12.1) (List.mem_range.mp hb22.1)
      (List.mem_range.mp hb12.2) (List.mem_range.mp hb22.2) heq
    have : l1 = l2 := by omega
    simp [this, hxe, hhe]
  · exact List.Nodup.product (List.nodup_range _)
      (List.Nodup.product (List.nodup_range _) (List.nodup_range _))

/-- With chained offsets the sequential running counter visits exactly the
recorded lines_so_far of each entry. -/
theorem seqBlocks_eq_offsets (M : ChunkModel) (opts : Options)
    (total lpc : Nat) :
    ∀ (pes : List (Nat × PlanEntry)) (ln : Nat),
      Chained ln (pes.map Prod.snd) →
      seqBlocks M opts total lpc ln pes =
        pes.map (fun pe => chunkWrites M pe.2.file
          (seqChunkCtx opts total lpc pe.1 pe.2.lines_so_far))
  | [], ln, _ => rfl
  | (fi, e) :: rest, ln, hch => by
      obtain ⟨h1, h2, h3⟩ := hch
      rw [seqBlocks, List.map_cons]
      rw [seqBlocks_eq_offsets M opts total lpc rest
        (ln + e.num_content_lines) h3]
      rw [h1]

@[simp] theorem seqChunkCtx_column_width (opts : Options)
    (total lpc fi ln : Nat) :
    (seqChunkCtx opts total lpc fi ln).column_width = opts.column_width := rfl

@[simp] theorem seqChunkCtx_line_height (opts : Options)
    (total lpc fi ln : Nat) :
    (seqChunkCtx opts total lpc fi ln).line_height = opts.line_height := rfl

@[simp] theorem seqChunkCtx_lines_per_column (opts : Options)
    (total lpc fi ln : Nat) :
    (seqChunkCtx opts total lpc fi ln).lines_per_column = lpc := rfl

@[simp] theorem seqChunkCtx_line_num (opts : Options)
    (total lpc fi ln : Nat) :
    (seqChunkCtx opts total lpc fi ln).line_num = ln := rfl

@[simp] theorem parChunkCtx_column_width (opts : Options) (total fi : Nat) :
    (parChunkCtx opts total fi).column_width = opts.column_width := rfl

@[simp] theorem parChunkCtx_line_height (opts : Options) (total fi : Nat) :
    (parChunkCtx opts total fi).line_height = opts.line_height := rfl

@[simp] theorem parChunkCtx_lines_per_column (opts : Options)
    (total fi : Nat) :
    (parChunkCtx opts total fi).lines_per_column = total := rfl

@[simp] theorem parChunkCtx_line_num (opts : Options) (total fi : Nat) :
    (parChunkCtx opts total fi).line_num = 0 := rfl

theorem mem_enum_spec {α : Type} {l : List α} {pe : Nat × α}
    (h : pe ∈ l.enum) : ∃ hj : pe.1 < l.length, pe.2 = l[pe.1] := by
  rcases List.mem_iff_getElem.mp h with ⟨m, hm, hval⟩
  have hml : m < l.length := by simpa [List.enum_length] using hm
  rw [List.getElem_enum] at hval
  subst hval
  exact ⟨hml, rfl⟩

/-- The write blocks of the sequential path, one per retained entry, each at
its recorded global offset. -/
def seqOffsetBlocks (M : ChunkModel) (opts : Options) (total lpc : Nat)
    (entries : List PlanEntry) : List (List (Pos × Rgb)) :=
  entries.enum.map (fun pe => chunkWrites M pe.2.file
    (seqChunkCtx opts total lpc pe.1 pe.2.lines_so_far))

/-- The write blocks of the collector, one per arrival. -/
def parPixelBlocks (M : ChunkModel) (opts : Options) (total lpc : Nat)
    (arrivals : List (Nat × PlanEntry)) : List (List (Pos × Rgb)) :=
  arrivals.map (fun pe => pixelCopyBlock M opts total lpc pe.1 pe.2)

theorem seqOffsetBlocks_length (M : ChunkModel) (opts : Options)
    (total lpc : Nat) (entries : List PlanEntry) :
    (seqOffsetBlocks M opts total lpc entries).length = entries.length := by
  simp [seqOffsetBlocks, List.enum_length]

/-- In the sequential composite, the pixel (x, h) of the slot of global line
lines_so_far k + l carries exactly the model color of line l of file k: no
other chunk ever writes there. -/
theorem seqCanvas_value_hit (M : ChunkModel) (opts : Options)
    (total lpc : Nat) (entries : List PlanEntry)
    (hch : Chained 0 entries) (hlpc : 0 < lpc)
    (k l x h : Nat) (hk : k < entries.length)
    (hl : l < entries[k].num_content_lines)
    (hx : x < opts.column_width) (hh : h < opts.line_height) :
    lastWrite (seqOffsetBlocks M opts total lpc entries).flatten
      (slotPos lpc opts.column_width opts.line_height
        (entries[k].lines_so_far + l) x h) =
    M.pixel (entryStyle opts total k) entries[k].file l x h := by
  have hkb : k < (seqOffsetBlocks M opts total lpc entries).length := by
    rw [seqOffsetBlocks_length]
    exact hk
  have hblockj : ∀ (j : Nat) (hj : j < entries.length)
      (hjb : j < (seqOffsetBlocks M opts total lpc entries).length),
      (seqOffsetBlocks M opts total lpc entries)[j] =
      chunkWrites M (entries[j].file)
        (seqChunkCtx opts total lpc j (entries[j].lines_so_far)) := by
    intro j hj hjb
    simp [seqOffsetBlocks, List.getElem_enum]
  have hothers : ∀ (j : Nat)
      (hj : j < (seqOffsetBlocks M opts total lpc entries).length), j ≠ k →
      (slotPos lpc opts.column_width opts.line_height
        (entries[k].lines_so_far + l) x h) ∉
        (((seqOffsetBlocks M opts total lpc entries)[j]).map Prod.fst) := by
    intro j hj hjk hqmem
    have hje : j < entries.length := by
      rw [← seqOffsetBlocks_length M opts total lpc entries]
      exact hj
    rw [hblockj j hje] at hqmem
    rcases List.mem_map.mp hqmem with ⟨w, hw, hwq⟩
    obtain ⟨p, c⟩ := w
    rcases mem_chunkWrites.mp hw with ⟨l2, x2, h2, hl2, hx2, hh2, hpix2, hp2⟩
    simp only [seqChunkCtx_column_width, seqChunkCtx_line_height,
      seqChunkCtx_lines_per_column, seqChunkCtx_line_num] at hx2 hh2 hp2
    simp only at hwq
    have heq : slotPos lpc opts.column_width opts.line_height
        (entries[j].lines_so_far + l2) x2 h2 =
        slotPos lpc opts.column_width opts.line_height
        (entries[k].lines_so_far + l) x h := by
      rw [← hp2, hwq]
    obtain ⟨hg, hxe, hhe⟩ := slotPos_inj hlpc hx2 hx hh2 hh heq
    have hl2n : l2 < entries[j].num_content_lines := by
      rw [chained_num_eq entries 0 hch j hje]
      exact hl2
    rcases Nat.lt_or_ge j k with hjk2 | hjk2
    · have hdisj := chained_disjoint entries 0 hch j k hje hk hjk2
      omega
    · have hjk3 : k < j := by omega
      have hdisj := chained_disjoint entries 0 hch k j hk hje hjk3
      omega
  rw [lastWrite_flatten_of_unique _ k hkb _ hothers, hblockj k hk]
  rcases hpix : M.pixel (entryStyle opts total k) entries[k].file l x h
    with _ | c
  · apply lastWrite_eq_none
    intro hqmem
    rcases List.mem_map.mp hqmem with ⟨w, hw, hwq⟩
    obtain ⟨p, c⟩ := w
    rcases mem_chunkWrites.mp hw with ⟨l2, x2, h2, hl2, hx2, hh2, hpix2, hp2⟩
    simp only [seqChunkCtx_column_width, seqChunkCtx_line_height,
      seqChunkCtx_lines_per_column, seqChunkCtx_line_num,
      seqChunkCtx_style] at hx2 hh2 hp2 hpix2
    simp only at hwq
    have heq : slotPos lpc opts.column_width opts.line_height
        (entries[k].lines_so_far + l2) x2 h2 =
        slotPos lpc opts.column_width opts.line_height
        (entries[k].lines_so_far + l) x h := by
      rw [← hp2, hwq]
    obtain ⟨hg, hxe, hhe⟩ := slotPos_inj hlpc hx2 hx hh2 hh heq
    have hleq : l2 = l := by omega
    rw [hleq, hxe, hhe] at hpix2
    rw [hpix2] at hpix
    cases hpix
  · apply lastWrite_eq_some (chunkWrites_nodup_fst (by simpa using hlpc))
    apply mem_chunkWrites.mpr
    refine ⟨l, x, h, ?_, hx, hh, ?_, ?_⟩
    · rw [← chained_num_eq entries 0 hch k hk]
      exact hl
    · rw [seqChunkCtx_style]
      exact hpix
    · rfl

/-- A position inside no entry slot is never written by the sequential
chunks. -/
theorem seqCanvas_value_miss (M : ChunkModel) (opts : Options)
    (total lpc : Nat) (entries : List PlanEntry)
    (hch : Chained 0 entries) (hlpc : 0 < lpc) (q : Pos)
    (hmiss : ∀ (k l x h : Nat) (hk : k < entries.length),
      l < entries[k].num_content_lines → x < opts.column_width →
      h < opts.line_height →
      q ≠ slotPos lpc opts.column_width opts.line_height
        (entries[k].lines_so_far + l) x h) :
    lastWrite (seqOffsetBlocks M opts total lpc entries).flatten q = none := by
  apply lastWrite_flatten_none
  intro b hb hqmem
  rcases List.mem_map.mp hb with ⟨pe, hpe, hbval⟩
  rcases mem_enum_spec hpe with ⟨hj, hpe2⟩
  rw [← hbval] at hqmem
  rcases List.mem_map.mp hqmem with ⟨w, hw, hwq⟩
  obtain ⟨p, c⟩ := w
  rcases mem_chunkWrites.mp hw with ⟨l2, x2, h2, hl2, hx2, hh2, hpix2, hp2⟩
  simp only [seqChunkCtx_column_width, seqChunkCtx_line_height,
    seqChunkCtx_lines_per_column, seqChunkCtx_line_num] at hx2 hh2 hp2
  simp only at hwq
  apply hmiss pe.1 l2 x2 h2 hj ?_ hx2 hh2 ?_
  · rw [chained_num_eq entries 0 hch pe.1 hj, ← hpe2]
    exact hl2
  · rw [← hwq, hp2, hpe2]

theorem enum_nodup {α : Type} (l : List α) : l.enum.Nodup :=
  List.Nodup.of_map Prod.fst (List.nodup_enum_map_fst l)

/-- In the stitched composite, the pixel (x, h) of the slot of global line
lines_so_far k + l carries the model color of line l of file k (black where
the model paints nothing): whatever the arrival order, no other stitched
result writes there. -/
theorem parCanvas_value_hit (M : ChunkModel) (opts : Options)
    (total lpc : Nat) (entries : List PlanEntry)
    (arrivals : List (Nat × PlanEntry))
    (hch : Chained 0 entries) (hlpc : 0 < lpc)
    (harr : arrivals.Perm entries.enum)
    (k l x h : Nat) (hk : k < entries.length)
    (hl : l < entries[k].num_content_lines)
    (hx : x < opts.column_width) (hh : h < opts.line_height) :
    lastWrite (parPixelBlocks M opts total lpc arrivals).flatten
      (slotPos lpc opts.column_width opts.line_height
        (entries[k].lines_so_far + l) x h) =
    some ((M.pixel (entryStyle opts total k) entries[k].file l x h).getD
      blackRgb) := by
  have harrnd : arrivals.Nodup := (harr.nodup_iff).mpr (enum_nodup entries)
  have hmemarr : ((k, entries[k]) : Nat × PlanEntry) ∈ arrivals := by
    apply harr.mem_iff.mpr
    apply List.mem_iff_getElem.mpr
    refine ⟨k, by simpa [List.enum_length] using hk, ?_⟩
    rw [List.getElem_enum]
  rcases List.mem_iff_getElem.mp hmemarr with ⟨m, hm, hmval⟩
  have hmb : m < (parPixelBlocks M opts total lpc arrivals).length := by
    simpa [parPixelBlocks] using hm
  have hothers : ∀ (j : Nat)
      (hj : j < (parPixelBlocks M opts total lpc arrivals).length), j ≠ m →
      (slotPos lpc opts.column_width opts.line_height
        (entries[k].lines_so_far + l) x h) ∉
        (((parPixelBlocks M opts total lpc arrivals)[j]).map Prod.fst) := by
    intro j hj hjm hqmem
    have hja : j < arrivals.length := by
      simpa [parPixelBlocks] using hj
    have hbj : (parPixelBlocks M opts total lpc arrivals)[j] =
        pixelCopyBlock M opts total lpc (arrivals[j]).1 (arrivals[j]).2 := by
      simp [parPixelBlocks]
    rw [hbj] at hqmem
    rcases List.mem_map.mp hqmem with ⟨w, hw, hwq⟩
    obtain ⟨p, c⟩ := w
    rcases mem_pixelCopyBlock.mp hw with ⟨l2, x2, h2, hl2, hx2, hh2, hc2, hp2⟩
    simp only at hwq
    have hpej := mem_enum_spec (harr.mem_iff.mp (List.mem_iff_getElem.mpr
      ⟨j, hja, rfl⟩))
    rcases hpej with ⟨hj1, hj2⟩
    have heq : slotPos lpc opts.column_width opts.line_height
        ((arrivals[j]).2.lines_so_far + l2) x2 h2 =
        slotPos lpc opts.column_width opts.line_height
        (entries[k].lines_so_far + l) x h := by
      rw [← hp2, hwq]
    obtain ⟨hg, hxe, hhe⟩ := slotPos_inj hlpc hx2 hx hh2 hh heq
    by_cases hjk : (arrivals[j]).1 = k
    · have hjeq : arrivals[j] = arrivals[m] := by
        rw [hmval]
        have hsplit : arrivals[j] = ((arrivals[j]).1, (arrivals[j]).2) := rfl
        rw [hsplit, hj2]
        simp [hjk]
      exact hjm ((List.Nodup.getElem_inj_iff harrnd).mp hjeq)
    · have hl2n : l2 < entries[(arrivals[j]).1].num_content_lines := by
        rw [← hj2]
        exact hl2
      have hofsj : (arrivals[j]).2.lines_so_far =
          entries[(arrivals[j]).1].lines_so_far := by
        rw [hj2]
      rw [hofsj] at hg
      rcases Nat.lt_or_ge (arrivals[j]).1 k with hjk2 | hjk2
      · have hdisj := chained_disjoint entries 0 hch (arrivals[j]).1 k hj1
          hk hjk2
        omega
      · have hjk3 : k < (arrivals[j]).1 := by omega
        have hdisj := chained_disjoint entries 0 hch k (arrivals[j]).1 hk
          hj1 hjk3
        omega
  rw [lastWrite_flatten_of_unique _ m hmb _ hothers]
  have hbm : (parPixelBlocks M opts total lpc arrivals)[m] =
      pixelCopyBlock M opts total lpc k entries[k] := by
    simp [parPixelBlocks, hmval]
  rw [hbm]
  apply lastWrite_eq_some (pixelCopyBlock_nodup_fst hlpc)
  exact mem_pixelCopyBlock.mpr ⟨l, x, h, hl, hx, hh, rfl, rfl⟩

/-- A position inside no entry slot is never written by the collector. -/
theorem parCanvas_value_miss (M : ChunkModel) (opts : Options)
    (total lpc : Nat) (entries : List PlanEntry)
    (arrivals : List (Nat × PlanEntry))
    (hch : Chained 0 entries) (hlpc : 0 < lpc)
    (harr : arrivals.Perm entries.enum) (q : Pos)
    (hmiss : ∀ (k l x h : Nat) (hk : k < entries.length),
      l < entries[k].num_content_lines → x < opts.column_width →
      h < opts.line_height →
      q ≠ slotPos lpc opts.column_width opts.line_height
        (entries[k].lines_so_far + l) x h) :
    lastWrite (parPixelBlocks M opts total lpc arrivals).flatten q = none := by
  apply lastWrite_flatten_none
  intro b hb hqmem
  rcases List.mem_map.mp hb with ⟨pe, hpe, hbval⟩
  rcases mem_enum_spec (harr.mem_iff.mp hpe) with ⟨hj, hj2⟩
  rw [← hbval] at hqmem
  rcases List.mem_map.mp hqmem with ⟨w, hw, hwq⟩
  obtain ⟨p, c⟩ := w
  rcases mem_pixelCopyBlock.mp hw with ⟨l2, x2, h2, hl2, hx2, hh2, hc2, hp2⟩
  simp only at hwq
  apply hmiss pe.1 l2 x2 h2 hj ?_ hx2 hh2 ?_
  · rw [← hj2]
    exact hl2
  · rw [← hwq, hp2, hj2]

/-- The composite the sequential path paints equals, pixel for pixel, the
composite the collector stitches, for every arrival order. -/
theorem canvas_seq_eq_par (M : ChunkModel) (opts : Options)
    (total lpc : Nat) (entries : List PlanEntry)
    (arrivals : List (Nat × PlanEntry))
    (hch : Chained 0 entries) (hlpc : 0 < lpc)
    (harr : arrivals.Perm entries.enum) :
    applyWrites (seqOffsetBlocks M opts total lpc entries).flatten
      initialCanvas =
    applyWrites (parPixelBlocks M opts total lpc arrivals).flatten
      initialCanvas := by
  funext q
  rw [applyWrites_eq_lastWrite, applyWrites_eq_lastWrite]
  by_cases hhit : ∃ (k l x h : Nat) (hk : k < entries.length),
      l < entries[k].num_content_lines ∧ x < opts.column_width ∧
      h < opts.line_height ∧
      q = slotPos lpc opts.column_width opts.line_height
        (entries[k].lines_so_far + l) x h
  · rcases hhit with ⟨k, l, x, h, hk, hl, hx, hh, hq⟩
    subst hq
    rw [seqCanvas_value_hit M opts total lpc entries hch hlpc k l x h hk hl
      hx hh, parCanvas_value_hit M opts total lpc entries arrivals hch hlpc
      harr k l x h hk hl hx hh]
    rcases hpix : M.pixel (entryStyle opts total k) entries[k].file l x h
      with _ | c
    · rfl
    · rfl
  · push_neg at hhit
    rw [seqCanvas_value_miss M opts total lpc entries hch hlpc q
      (fun k l x h hk h1 h2 h3 => hhit k l x h hk h1 h2 h3),
      parCanvas_value_miss M opts total lpc entries arrivals hch hlpc harr q
      (fun k l x h hk h1 h2 h3 => hhit k l x h hk h1 h2 h3)]

theorem entriesLineSum_enum (entries : List PlanEntry) :
    entriesLineSum entries.enum =
      (entries.map PlanEntry.num_content_lines).sum := by
  rw [entriesLineSum]
  have hmm : entries.enum.map (fun pe => pe.2.num_content_lines) =
      (entries.enum.map Prod.snd).map PlanEntry.num_content_lines := by
    rw [List.map_map]
    rfl
  rw [hmm, List.enum_map_snd]

theorem entriesLineSum_perm {a b : List (Nat × PlanEntry)} (h : a.Perm b) :
    entriesLineSum a = entriesLineSum b :=
  (h.map _).sum_eq

theorem foldLongest_eq_foldl_max (M : ChunkModel) (opts : Options)
    (total : Nat) :
    ∀ (l : List (Nat × PlanEntry)) (acc : Nat),
      foldLongest M opts total l acc =
        List.foldl max acc (l.map (fun pe =>
          (M.outcome (entryStyle opts total pe.1)
            pe.2.file).longest_line_in_chars))
  | [], acc => rfl
  | pe :: rest, acc => by
      simp only [foldLongest, List.foldl_cons, List.map_cons]
      rw [show (rest.foldl (fun acc pe =>
          max (M.outcome (entryStyle opts total pe.1)
            pe.2.file).longest_line_in_chars acc)
          (max (M.outcome (entryStyle opts total pe.1)
            pe.2.file).longest_line_in_chars acc)) =
        foldLongest M opts total rest
          (max (M.outcome (entryStyle opts total pe.1)
            pe.2.file).longest_line_in_chars acc) from rfl]
      rw [foldLongest_eq_foldl_max M opts total rest _]
      rw [Nat.max_comm]

theorem foldLongest_perm (M : ChunkModel) (opts : Options) (total : Nat)
    {a b : List (Nat × PlanEntry)} (h : a.Perm b) (acc : Nat) :
    foldLongest M opts total a acc = foldLongest M opts total b acc := by
  rw [foldLongest_eq_foldl_max, foldLongest_eq_foldl_max]
  exact (h.map _).foldl_eq acc

theorem foldBackground_const (M : ChunkModel) (opts : Options) (total : Nat)
    (bg0 : Option Rgb)
    (hbg : ∀ sc f, (M.outcome sc f).background = bg0) :
    ∀ (l : List (Nat × PlanEntry)) (acc : Option Rgb), l ≠ [] →
      foldBackground M opts total l acc = bg0
  | [], acc, hne => absurd rfl hne
  | pe :: rest, acc, _ => by
      rw [foldBackground, List.foldl_cons]
      rcases rest with _ | ⟨pe2, rest2⟩
      · simp [hbg]
      · exact foldBackground_const M opts total bg0 hbg (pe2 :: rest2) _
          (by simp)

/-- The background aggregate is the outcome of the last processed file, the
starting value when nothing was processed. -/
theorem foldBackground_eq_getLast (M : ChunkModel) (opts : Options)
    (total : Nat) :
    ∀ (l : List (Nat × PlanEntry)) (acc : Option Rgb),
      foldBackground M opts total l acc =
        ((l.map (fun pe =>
          (M.outcome (entryStyle opts total pe.1)
            pe.2.file).background)).getLast?).getD acc
  | [], acc => rfl
  | pe :: rest, acc => by
      rw [foldBackground, List.foldl_cons]
      rw [show (rest.foldl (fun _ pe =>
          (M.outcome (entryStyle opts total pe.1) pe.2.file).background)
          ((M.outcome (entryStyle opts total pe.1) pe.2.file).background)) =
        foldBackground M opts total rest
          ((M.outcome (entryStyle opts total pe.1) pe.2.file).background)
        from rfl]
      rw [foldBackground_eq_getLast M opts total rest _]
      rcases rest with _ | ⟨pe2, rest2⟩
      · simp
      · simp only [List.map_cons, List.getLast?_cons_cons]
        rcases hlast : ((M.outcome (entryStyle opts total pe2.1)
            pe2.2.file).background ::
            List.map (fun pe => (M.outcome (entryStyle opts total pe.1)
              pe.2.file).background) rest2).getLast? with _ | v
        · rw [List.getLast?_eq_none_iff] at hlast
          cases hlast
        · rfl

/-- Under the plan invariants, the collector stitch blocks are exactly the
pixel blocks at the recorded offsets. -/
theorem parBlocks_eq_pixel (M : ChunkModel) (opts : Options)
    (total lpc : Nat) (entries : List PlanEntry)
    (arrivals : List (Nat × PlanEntry)) (hch : Chained 0 entries)
    (hsum : (entries.map PlanEntry.num_content_lines).sum = total)
    (harr : arrivals.Perm entries.enum) :
    parBlocks M opts total lpc arrivals =
      parPixelBlocks M opts total lpc arrivals := by
  rw [parBlocks, parPixelBlocks]
  apply List.map_congr_left
  intro pe hpe
  rcases mem_enum_spec (harr.mem_iff.mp hpe) with ⟨hj, hj2⟩
  apply copyWrites_eq_pixelCopyBlock
  · have hrange := (chained_range_le entries 0 hch pe.1 hj).2
    rw [hj2]
    omega
  · rw [hj2]
    exact chained_num_eq entries 0 hch pe.1 hj

/-- Full unfolding of a successful sequential render. -/
theorem render_seq_success (M : ChunkModel) (content : List SourceFile)
    (ss : SyntaxSet) (themes : List String) (opts : Options) (numCpus : Nat)
    (arrivals : List (Nat × PlanEntry)) (entries : List PlanEntry)
    (total nig : Nat) (dim : Dimension)
    (hplan : planFiles ss opts.skip_unsyntaxed_files content =
      .ok (entries, total, nig))
    (htotal : total ≠ 0)
    (hdim : dimension_compute opts.target_aspect_ratio opts.column_width
      total opts.line_height opts.force_full_columns = .ok dim)
    (hth : themes.contains opts.theme = true)
    (hlt : max 1 (min (if opts.threads = 0 then numCpus else opts.threads)
      numCpus) < 2)
    (hlkE : ∀ pe ∈ entries.enum, opts.plain = false →
      ∃ syn, ss.find_syntax_for_file pe.2.file.path = .ok syn) :
    render M content false ss themes opts numCpus arrivals =
      (Event.alloc dim.imgx dim.imgy ::
        processedEvents entries.enum.length,
       .ok ⟨fillLoop opts.column_width opts.line_height
              dim.lines_per_column
              ((foldBackground M opts total entries.enum none).getD blackRgb)
              (entriesLineSum entries.enum)
              (dim.lines_per_column * dim.required_columns -
                entriesLineSum entries.enum)
              (applyWrites (seqBlocks M opts total dim.lines_per_column 0
                entries.enum).flatten initialCanvas),
            dim.imgx, dim.imgy,
            foldLongest M opts total entries.enum 0, nig⟩) := by
  have hmem : opts.theme ∈ themes := by simpa using hth
  have hseq := seqRun_ok M ss opts total dim.lines_per_column entries.enum
    ⟨0, 0, none, initialCanvas⟩ 0 hlkE
  rw [render, hplan]
  simp [htotal, hdim, hmem, hlt, hseq]

/-- Full unfolding of a successful parallel render. -/
theorem render_par_success (M : ChunkModel) (content : List SourceFile)
    (ss : SyntaxSet) (themes : List String) (opts : Options) (numCpus : Nat)
    (arrivals : List (Nat × PlanEntry)) (entries : List PlanEntry)
    (total nig : Nat) (dim : Dimension)
    (hplan : planFiles ss opts.skip_unsyntaxed_files content =
      .ok (entries, total, nig))
    (htotal : total ≠ 0)
    (hdim : dimension_compute opts.target_aspect_ratio opts.column_width
      total opts.line_height opts.force_full_columns = .ok dim)
    (hth : themes.contains opts.theme = true)
    (hge : ¬ (max 1 (min (if opts.threads = 0 then numCpus
      else opts.threads) numCpus) < 2))
    (hlkA : ∀ pe ∈ arrivals, opts.plain = false →
      ∃ syn, ss.find_syntax_for_file pe.2.file.path = .ok syn) :
    render M content false ss themes opts numCpus arrivals =
      (Event.alloc dim.imgx dim.imgy :: processedEvents arrivals.length,
       .ok ⟨fillLoop opts.column_width opts.line_height
              dim.lines_per_column
              ((foldBackground M opts total arrivals none).getD blackRgb)
              (entriesLineSum arrivals)
              (dim.lines_per_column * dim.required_columns -
                entriesLineSum arrivals)
              (applyWrites (parBlocks M opts total dim.lines_per_column
                arrivals).flatten initialCanvas),
            dim.imgx, dim.imgy,
            foldLongest M opts total arrivals 0, nig⟩) := by
  have hmem : opts.theme ∈ themes := by simpa using hth
  have hpar := parRun_ok M ss opts total dim.lines_per_column arrivals
    ⟨0, 0, none, initialCanvas⟩ 0 hlkA
  rw [render, hplan]
  simp [htotal, hdim, hmem, hge, hpar]

/-- Seen from inside its range, the fill loop paints the whole slot of every
line it visits with the background color. -/
theorem fillLoop_value_in_range (cw lh lpc : Nat) (bg : Rgb)
    (ln count : Nat) (c : Canvas) (i x h : Nat) (hi1 : ln ≤ i)
    (hi2 : i < ln + count) (hx : x < cw) (hh : h < lh) :
    fillLoop cw lh lpc bg ln count c (slotPos lpc cw lh i x h) = bg := by
  rw [fillLoop_eq_applyWrites, applyWrites_eq_lastWrite]
  have hmem : (slotPos lpc cw lh i x h) ∈
      (fillWrites cw lh lpc bg ln count).map Prod.fst := by
    apply List.mem_map.mpr
    refine ⟨(slotPos lpc cw lh i x h, bg), ?_, rfl⟩
    exact mem_fillWrites.mpr ⟨rfl, i, x, h, hi1, hi2, hx, hh, rfl⟩
  rw [lastWrite_const ?_ hmem]
  · rfl
  · rintro ⟨p0, c0⟩ hw
    exact (mem_fillWrites.mp hw).1

/-- The fill loop touches nothing outside the slots of the lines it
visits. -/
theorem fillLoop_touches_only (cw lh lpc : Nat) (bg : Rgb) (ln count : Nat)
    (c : Canvas) (q : Pos)
    (hne : fillLoop cw lh lpc bg ln count c q ≠ c q) :
    ∃ i x h, ln ≤ i ∧ i < ln + count ∧ x < cw ∧ h < lh ∧
      q = slotPos lpc cw lh i x h := by
  rw [fillLoop_eq_applyWrites, applyWrites_eq_lastWrite] at hne
  rcases hlw : lastWrite (fillWrites cw lh lpc bg ln count) q with _ | v
  · rw [hlw] at hne
    exact absurd rfl hne
  · rcases mem_fillWrites.mp (lastWrite_mem hlw) with
      ⟨hc, i, x, h, hi1, hi2, hx, hh, hp⟩
    exact ⟨i, x, h, hi1, hi2, hx, hh, hp⟩

/-- C1: on the same input, configuration and color modulation, with the
cancellation flag clear, rendering with threads forced to 1 (sequential
path) and with threads forced to any N at least 2 on a machine with at least
two cpus (parallel path) return the same dimensions and a pixel-identical
canvas, whatever the arrival order of the worker results.  The per-file
outcome background is the theme default, identical across files (sections 3
and 4.3 of the spec). -/
theorem render_seq_parallel_pixel_identical
    (M : ChunkModel) (content : List SourceFile) (ss : SyntaxSet)
    (themes : List String) (opts : Options) (numCpus N : Nat)
    (arrivals : List (Nat × PlanEntry)) (entries : List PlanEntry)
    (total nig : Nat) (dim : Dimension) (bg0 : Option Rgb)
    (hplan : planFiles ss opts.skip_unsyntaxed_files content =
      .ok (entries, total, nig))
    (htotal : total ≠ 0)
    (hdim : dimension_compute opts.target_aspect_ratio opts.column_width
      total opts.line_height opts.force_full_columns = .ok dim)
    (hth : themes.contains opts.theme = true)
    (h1 : opts.threads = 1) (hcpu : 1 ≤ numCpus) (hN : 2 ≤ N)
    (hcpu2 : 2 ≤ numCpus)
    (harr : arrivals.Perm entries.enum)
    (hlk : ∀ f ∈ content, opts.plain = false →
      ∃ syn, ss.find_syntax_for_file f.path = .ok syn)
    (hbg : ∀ sc f, (M.outcome sc f).background = bg0) :
    ∃ v1 v2 : RenderValue,
      (render M content false ss themes opts numCpus arrivals).2 = .ok v1 ∧
      (render M content false ss themes {opts with threads := N} numCpus
        arrivals).2 = .ok v2 ∧
      v1.canvas = v2.canvas ∧ v1.imgx = v2.imgx ∧ v1.imgy = v2.imgy := by
  obtain ⟨hent, htot, hnig⟩ := planLoop_ok_spec ss
    opts.skip_unsyntaxed_files content 0 0 0 entries total nig hplan
  have hch : Chained 0 entries := by
    rw [hent]
    exact retainedEntriesFrom_chained _ _ content 0
  have hsum : (entries.map PlanEntry.num_content_lines).sum = total := by
    rw [hent, retainedEntriesFrom_sum]
    omega
  have hdims := dimension_compute_spec hdim (by omega)
  have hlpc : 0 < dim.lines_per_column := hdims.2.2.2.1
  have hfilemem : ∀ e ∈ entries, e.file ∈ content := by
    intro e he
    rw [hent] at he
    exact (retainedEntriesFrom_mem _ _ content 0 e he).2.2
  have hlkE : ∀ pe ∈ entries.enum, opts.plain = false →
      ∃ syn, ss.find_syntax_for_file pe.2.file.path = .ok syn := by
    intro pe hpe hpl
    rcases mem_enum_spec hpe with ⟨hj, hj2⟩
    apply hlk pe.2.file ?_ hpl
    rw [hj2]
    exact hfilemem _ (List.getElem_mem hj)
  have hlkA : ∀ pe ∈ arrivals, opts.plain = false →
      ∃ syn, ss.find_syntax_for_file pe.2.file.path = .ok syn :=
    fun pe hpe => hlkE pe (harr.mem_iff.mp hpe)
  have hlt : max 1 (min (if opts.threads = 0 then numCpus else opts.threads)
      numCpus) < 2 := by
    rw [h1]
    rw [if_neg (by omega : ¬ (1 : Nat) = 0)]
    omega
  have hge : ¬ (max 1 (min (if ({opts with threads := N} :
      Options).threads = 0 then numCpus
      else ({opts with threads := N} : Options).threads) numCpus) < 2) := by
    rw [threads_update_threads, if_neg (by omega : ¬ N = 0)]
    omega
  have hs := render_seq_success M content ss themes opts numCpus arrivals
    entries total nig dim hplan htotal hdim hth hlt hlkE
  have hplan2 : planFiles ss ({opts with threads := N} :
      Options).skip_unsyntaxed_files content = .ok (entries, total, nig) := by
    rw [threads_update_skip]
    exact hplan
  have hdim2 : dimension_compute ({opts with threads := N} :
      Options).target_aspect_ratio ({opts with threads := N} :
      Options).column_width total ({opts with threads := N} :
      Options).line_height ({opts with threads := N} :
      Options).force_full_columns = .ok dim := by
    rw [threads_update_target, threads_update_column_width,
      threads_update_line_height, threads_update_force]
    exact hdim
  have hth2 : themes.contains ({opts with threads := N} :
      Options).theme = true := by
    rw [threads_update_theme]
    exact hth
  have hlkA2 : ∀ pe ∈ arrivals, ({opts with threads := N} :
      Options).plain = false →
      ∃ syn, ss.find_syntax_for_file pe.2.file.path = .ok syn := by
    intro pe hpe hpl
    apply hlkA pe hpe
    rwa [threads_update_plain] at hpl
  have hp := render_par_success M content ss themes
    {opts with threads := N} numCpus arrivals entries total nig dim hplan2
    htotal hdim2 hth2 hge hlkA2
  have hneS : entries.enum ≠ [] := by
    intro hcon
    apply plan_total_pos_entries_ne_nil hplan htotal
    have hlen := congrArg List.length hcon
    rw [List.enum_length] at hlen
    exact List.length_eq_zero.mp hlen
  have hneA : arrivals ≠ [] := by
    intro hcon
    apply hneS
    have hlen := harr.length_eq
    rw [hcon] at hlen
    exact List.length_eq_zero.mp hlen.symm
  have hbgS : foldBackground M opts total entries.enum none = bg0 :=
    foldBackground_const M opts total bg0 hbg _ _ hneS
  have hbgA : foldBackground M {opts with threads := N} total arrivals
      none = bg0 :=
    foldBackground_const M {opts with threads := N} total bg0 hbg _ _ hneA
  have hlnS : entriesLineSum entries.enum = total := by
    rw [entriesLineSum_enum]
    exact hsum
  have hlnA : entriesLineSum arrivals = total := by
    rw [entriesLineSum_perm harr, hlnS]
  have hcanvas : applyWrites (seqBlocks M opts total dim.lines_per_column 0
        entries.enum).flatten initialCanvas =
      applyWrites (parBlocks M {opts with threads := N} total
        dim.lines_per_column arrivals).flatten initialCanvas := by
    rw [seqBlocks_eq_offsets M opts total dim.lines_per_column entries.enum
      0 (by rw [List.enum_map_snd]; exact hch)]
    rw [parBlocks_eq_pixel M {opts with threads := N} total
      dim.lines_per_column entries arrivals hch hsum harr]
    have hsame : parPixelBlocks M {opts with threads := N} total
        dim.lines_per_column arrivals =
        parPixelBlocks M opts total dim.lines_per_column arrivals := rfl
    rw [hsame]
    exact canvas_seq_eq_par M opts total dim.lines_per_column entries
      arrivals hch hlpc harr
  refine ⟨⟨fillLoop opts.column_width opts.line_height dim.lines_per_column
      ((foldBackground M opts total entries.enum none).getD blackRgb)
      (entriesLineSum entries.enum)
      (dim.lines_per_column * dim.required_columns -
        entriesLineSum entries.enum)
      (applyWrites (seqBlocks M opts total dim.lines_per_column 0
        entries.enum).flatten initialCanvas),
     dim.imgx, dim.imgy, foldLongest M opts total entries.enum 0, nig⟩,
    ⟨fillLoop ({opts with threads := N} : Options).column_width
      ({opts with threads := N} : Options).line_height dim.lines_per_column
      ((foldBackground M {opts with threads := N} total arrivals
        none).getD blackRgb)
      (entriesLineSum arrivals)
      (dim.lines_per_column * dim.required_columns - entriesLineSum arrivals)
      (applyWrites (parBlocks M {opts with threads := N} total
        dim.lines_per_column arrivals).flatten initialCanvas),
     dim.imgx, dim.imgy,
     foldLongest M {opts with threads := N} total arrivals 0, nig⟩,
    by rw [hs], by rw [hp], ?_, rfl, rfl⟩
  show fillLoop opts.column_width opts.line_height dim.lines_per_column
      ((foldBackground M opts total entries.enum none).getD blackRgb)
      (entriesLineSum entries.enum)
      (dim.lines_per_column * dim.required_columns -
        entriesLineSum entries.enum)
      (applyWrites (seqBlocks M opts total dim.lines_per_column 0
        entries.enum).flatten initialCanvas) =
    fillLoop ({opts with threads := N} : Options).column_width
      ({opts with threads := N} : Options).line_height
      dim.lines_per_column
      ((foldBackground M {opts with threads := N} total arrivals
        none).getD blackRgb)
      (entriesLineSum arrivals)
      (dim.lines_per_column * dim.required_columns - entriesLineSum arrivals)
      (applyWrites (parBlocks M {opts with threads := N} total
        dim.lines_per_column arrivals).flatten initialCanvas)
  rw [threads_update_column_width, threads_update_line_height, hbgS, hbgA,
    hlnS, hlnA, hcanvas]

/-- C4: after either path completes, every line slot from the last rendered
global index (the total line count) up to lines_per_column times
required_columns is filled entirely, pixel by pixel through the Offset
Calculator, with the last-observed background color, pure black when none was
observed.  Per sections 3 and 4.3 of the spec every outcome reports the theme
default background bg0, so the last-observed background is bg0 on both
paths. -/
theorem render_fill_pads_trailing_slots
    (M : ChunkModel) (content : List SourceFile) (ss : SyntaxSet)
    (themes : List String) (opts : Options) (numCpus N : Nat)
    (arrivals : List (Nat × PlanEntry)) (entries : List PlanEntry)
    (total nig : Nat) (dim : Dimension) (bg0 : Option Rgb)
    (hplan : planFiles ss opts.skip_unsyntaxed_files content =
      .ok (entries, total, nig))
    (htotal : total ≠ 0)
    (hdim : dimension_compute opts.target_aspect_ratio opts.column_width
      total opts.line_height opts.force_full_columns = .ok dim)
    (hth : themes.contains opts.theme = true)
    (h1 : opts.threads = 1) (hcpu : 1 ≤ numCpus) (hN : 2 ≤ N)
    (hcpu2 : 2 ≤ numCpus)
    (harr : arrivals.Perm entries.enum)
    (hlk : ∀ f ∈ content, opts.plain = false →
      ∃ syn, ss.find_syntax_for_file f.path = .ok syn)
    (hbg : ∀ sc f, (M.outcome sc f).background = bg0) :
    ∃ v1 v2 : RenderValue,
      (render M content false ss themes opts numCpus arrivals).2 = .ok v1 ∧
      (render M content false ss themes {opts with threads := N} numCpus
        arrivals).2 = .ok v2 ∧
      ∀ (i x h : Nat), total ≤ i →
        i < dim.lines_per_column * dim.required_columns →
        x < opts.column_width → h < opts.line_height →
        v1.canvas (slotPos dim.lines_per_column opts.column_width
          opts.line_height i x h) = bg0.getD blackRgb ∧
        v2.canvas (slotPos dim.lines_per_column opts.column_width
          opts.line_height i x h) = bg0.getD blackRgb := by
  obtain ⟨hent, htot, hnig⟩ := planLoop_ok_spec ss
    opts.skip_unsyntaxed_files content 0 0 0 entries total nig hplan
  have hsum : (entries.map PlanEntry.num_content_lines).sum = total := by
    rw [hent, retainedEntriesFrom_sum]
    omega
  have hdims := dimension_compute_spec hdim (by omega)
  have hfilemem : ∀ e ∈ entries, e.file ∈ content := by
    intro e he
    rw [hent] at he
    exact (retainedEntriesFrom_mem _ _ content 0 e he).2.2
  have hlkE : ∀ pe ∈ entries.enum, opts.plain = false →
      ∃ syn, ss.find_syntax_for_file pe.2.file.path = .ok syn := by
    intro pe hpe hpl
    rcases mem_enum_spec hpe with ⟨hj, hj2⟩
    apply hlk pe.2.file ?_ hpl
    rw [hj2]
    exact hfilemem _ (List.getElem_mem hj)
  have hlkA : ∀ pe ∈ arrivals, opts.plain = false →
      ∃ syn, ss.find_syntax_for_file pe.2.file.path = .ok syn :=
    fun pe hpe => hlkE pe (harr.mem_iff.mp hpe)
  have hlt : max 1 (min (if opts.threads = 0 then numCpus else opts.threads)
      numCpus) < 2 := by
    rw [h1]
    rw [if_neg (by omega : ¬ (1 : Nat) = 0)]
    omega
  have hge : ¬ (max 1 (min (if ({opts with threads := N} :
      Options).threads = 0 then numCpus
      else ({opts with threads := N} : Options).threads) numCpus) < 2) := by
    rw [threads_update_threads, if_neg (by omega : ¬ N = 0)]
    omega
  have hs := render_seq_success M content ss themes opts numCpus arrivals
    entries total nig dim hplan htotal hdim hth hlt hlkE
  have hplan2 : planFiles ss ({opts with threads := N} :
      Options).skip_unsyntaxed_files content = .ok (entries, total, nig) := by
    rw [threads_update_skip]
    exact hplan
  have hdim2 : dimension_compute ({opts with threads := N} :
      Options).target_aspect_ratio ({opts with threads := N} :
      Options).column_width total ({opts with threads := N} :
      Options).line_height ({opts with threads := N} :
      Options).force_full_columns = .ok dim := by
    rw [threads_update_target, threads_update_column_width,
      threads_update_line_height, threads_update_force]
    exact hdim
  have hth2 : themes.contains ({opts with threads := N} :
      Options).theme = true := by
    rw [threads_update_theme]
    exact hth
  have hlkA2 : ∀ pe ∈ arrivals, ({opts with threads := N} :
      Options).plain = false →
      ∃ syn, ss.find_syntax_for_file pe.2.file.path = .ok syn := by
    intro pe hpe hpl
    apply hlkA pe hpe
    rwa [threads_update_plain] at hpl
  have hp := render_par_success M content ss themes
    {opts with threads := N} numCpus arrivals entries total nig dim hplan2
    htotal hdim2 hth2 hge hlkA2
  have hneS : entries.enum ≠ [] := by
    intro hcon
    apply plan_total_pos_entries_ne_nil hplan htotal
    have hlen := congrArg List.length hcon
    rw [List.enum_length] at hlen
    exact List.length_eq_zero.mp hlen
  have hneA : arrivals ≠ [] := by
    intro hcon
    apply hneS
    have hlen := harr.length_eq
    rw [hcon] at hlen
    exact List.length_eq_zero.mp hlen.symm
  have hbgS : foldBackground M opts total entries.enum none = bg0 :=
    foldBackground_const M opts total bg0 hbg _ _ hneS
  have hbgA : foldBackground M {opts with threads := N} total arrivals
      none = bg0 :=
    foldBackground_const M {opts with threads := N} total bg0 hbg _ _ hneA
  have hlnS : entriesLineSum entries.enum = total := by
    rw [entriesLineSum_enum]
    exact hsum
  have hlnA : entriesLineSum arrivals = total := by
    rw [entriesLineSum_perm harr, hlnS]
  refine ⟨_, _, by rw [hs], by rw [hp], ?_⟩
  intro i x h hi1 hi2 hx hh
  constructor
  · show fillLoop opts.column_width opts.line_height dim.lines_per_column
      ((foldBackground M opts total entries.enum none).getD blackRgb)
      (entriesLineSum entries.enum)
      (dim.lines_per_column * dim.required_columns -
        entriesLineSum entries.enum)
      (applyWrites (seqBlocks M opts total dim.lines_per_column 0
        entries.enum).flatten initialCanvas)
      (slotPos dim.lines_per_column opts.column_width opts.line_height
        i x h) = bg0.getD blackRgb
    rw [hbgS, hlnS]
    exact fillLoop_value_in_range _ _ _ _ _ _ _ i x h hi1 (by omega) hx hh
  · show fillLoop ({opts with threads := N} : Options).column_width
      ({opts with threads := N} : Options).line_height dim.lines_per_column
      ((foldBackground M {opts with threads := N} total arrivals
        none).getD blackRgb)
      (entriesLineSum arrivals)
      (dim.lines_per_column * dim.required_columns - entriesLineSum arrivals)
      (applyWrites (parBlocks M {opts with threads := N} total
        dim.lines_per_column arrivals).flatten initialCanvas)
      (slotPos dim.lines_per_column opts.column_width opts.line_height
        i x h) = bg0.getD blackRgb
    rw [hbgA, hlnA, threads_update_column_width, threads_update_line_height]
    exact fillLoop_value_in_range _ _ _ _ _ _ _ i x h hi1 (by omega) hx hh

/-- C9: when either path completes without error the running global line
counter equals the total line count, hence the trailing while loop starts at
the total, runs exactly lines_per_column * required_columns - total
iterations, and changes pixels only inside slots of index at least the
total. -/
theorem run_counter_reaches_total_and_fill_stays_beyond
    (M : ChunkModel) (content : List SourceFile) (ss : SyntaxSet)
    (opts : Options) (arrivals : List (Nat × PlanEntry))
    (entries : List PlanEntry) (total nig : Nat) (dim : Dimension)
    (hplan : planFiles ss opts.skip_unsyntaxed_files content =
      .ok (entries, total, nig))
    (htotal : total ≠ 0)
    (hdim : dimension_compute opts.target_aspect_ratio opts.column_width
      total opts.line_height opts.force_full_columns = .ok dim)
    (harr : arrivals.Perm entries.enum)
    (hlk : ∀ f ∈ content, opts.plain = false →
      ∃ syn, ss.find_syntax_for_file f.path = .ok syn) :
    (∀ (st : RunState) (p : Nat),
      seqRun M ss opts false total dim.lines_per_column entries.enum
        ⟨0, 0, none, initialCanvas⟩ 0 = .ok st p → st.line_num = total) ∧
    (∀ (st : RunState) (p : Nat),
      parRun M ss opts false total dim.lines_per_column arrivals
        ⟨0, 0, none, initialCanvas⟩ 0 = .ok st p → st.line_num = total) ∧
    (∀ (c : Canvas) (bg : Rgb) (q : Pos),
      fillLoop opts.column_width opts.line_height dim.lines_per_column bg
        total (dim.lines_per_column * dim.required_columns - total) c q ≠
        c q →
      ∃ i x h, total ≤ i ∧
        i < dim.lines_per_column * dim.required_columns ∧
        x < opts.column_width ∧ h < opts.line_height ∧
        q = slotPos dim.lines_per_column opts.column_width opts.line_height
          i x h) := by
  obtain ⟨hent, htot, hnig⟩ := planLoop_ok_spec ss
    opts.skip_unsyntaxed_files content 0 0 0 entries total nig hplan
  have hsum : (entries.map PlanEntry.num_content_lines).sum = total := by
    rw [hent, retainedEntriesFrom_sum]
    omega
  have hdims := dimension_compute_spec hdim (by omega)
  have hfilemem : ∀ e ∈ entries, e.file ∈ content := by
    intro e he
    rw [hent] at he
    exact (retainedEntriesFrom_mem _ _ content 0 e he).2.2
  have hlkE : ∀ pe ∈ entries.enum, opts.plain = false →
      ∃ syn, ss.find_syntax_for_file pe.2.file.path = .ok syn := by
    intro pe hpe hpl
    rcases mem_enum_spec hpe with ⟨hj, hj2⟩
    apply hlk pe.2.file ?_ hpl
    rw [hj2]
    exact hfilemem _ (List.getElem_mem hj)
  have hlkA : ∀ pe ∈ arrivals, opts.plain = false →
      ∃ syn, ss.find_syntax_for_file pe.2.file.path = .ok syn :=
    fun pe hpe => hlkE pe (harr.mem_iff.mp hpe)
  have hlnS : entriesLineSum entries.enum = total := by
    rw [entriesLineSum_enum]
    exact hsum
  have hlnA : entriesLineSum arrivals = total := by
    rw [entriesLineSum_perm harr, hlnS]
  refine ⟨?_, ?_, ?_⟩
  · intro st p heq
    rw [seqRun_ok M ss opts total dim.lines_per_column entries.enum
      ⟨0, 0, none, initialCanvas⟩ 0 hlkE] at heq
    have hst := (RunResult.ok.injEq _ _ _ _).mp heq
    rw [← hst.1]
    simpa using hlnS
  · intro st p heq
    rw [parRun_ok M ss opts total dim.lines_per_column arrivals
      ⟨0, 0, none, initialCanvas⟩ 0 hlkA] at heq
    have hst := (RunResult.ok.injEq _ _ _ _).mp heq
    rw [← hst.1]
    simpa using hlnA
  · intro c bg q hne
    rcases fillLoop_touches_only _ _ _ _ _ _ _ _ hne with
      ⟨i, x, h, hi1, hi2, hx, hh, hq⟩
    exact ⟨i, x, h, hi1, by omega, hx, hh, hq⟩

/-- C8: both paths fold the per-file outcomes identically: the longest line
count by a running maximum over the processed files, the background by plain
overwriting, so it ends at the outcome of the last processed file (input
order sequentially, arrival order at the collector). -/
theorem run_aggregates_max_and_last_seen
    (M : ChunkModel) (ss : SyntaxSet) (opts : Options) (total lpc : Nat)
    (pes arrivals : List (Nat × PlanEntry))
    (hlkE : ∀ pe ∈ pes, opts.plain = false →
      ∃ syn, ss.find_syntax_for_file pe.2.file.path = .ok syn)
    (hlkA : ∀ pe ∈ arrivals, opts.plain = false →
      ∃ syn, ss.find_syntax_for_file pe.2.file.path = .ok syn) :
    seqRun M ss opts false total lpc pes ⟨0, 0, none, initialCanvas⟩ 0 =
      .ok ⟨entriesLineSum pes,
           List.foldl max 0 (pes.map (fun pe =>
             (M.outcome (entryStyle opts total pe.1)
               pe.2.file).longest_line_in_chars)),
           ((pes.map (fun pe =>
             (M.outcome (entryStyle opts total pe.1)
               pe.2.file).background)).getLast?).getD none,
           applyWrites (seqBlocks M opts total lpc 0 pes).flatten
             initialCanvas⟩ pes.length ∧
    parRun M ss opts false total lpc arrivals ⟨0, 0, none, initialCanvas⟩
        0 =
      .ok ⟨entriesLineSum arrivals,
           List.foldl max 0 (arrivals.map (fun pe =>
             (M.outcome (entryStyle opts total pe.1)
               pe.2.file).longest_line_in_chars)),
           ((arrivals.map (fun pe =>
             (M.outcome (entryStyle opts total pe.1)
               pe.2.file).background)).getLast?).getD none,
           applyWrites (parBlocks M opts total lpc arrivals).flatten
             initialCanvas⟩ arrivals.length := by
  constructor
  · rw [seqRun_ok M ss opts total lpc pes ⟨0, 0, none, initialCanvas⟩ 0 hlkE]
    rw [foldLongest_eq_foldl_max, foldBackground_eq_getLast]
    simp
  · rw [parRun_ok M ss opts total lpc arrivals ⟨0, 0, none, initialCanvas⟩
      0 hlkA]
    rw [foldLongest_eq_foldl_max, foldBackground_eq_getLast]
    simp

theorem render_cancelled_when_flag_preset_witness :
    render emptyChunkModel [sampleFileA] true noSyntaxSet ["gruvbox"]
        sampleOptions 2 [(0, ⟨sampleFileA, 1, 0⟩)] =
      ([Event.alloc 8 2], .error .cancelled) ∧
    render emptyChunkModel [sampleFileA] true noSyntaxSet ["gruvbox"]
        {sampleOptions with threads := 2} 2 [(0, ⟨sampleFileA, 1, 0⟩)] =
      ([Event.alloc 8 2, Event.fileRendered 0], .error .cancelled) :=
  render_cancelled_when_flag_preset emptyChunkModel [sampleFileA]
    noSyntaxSet ["gruvbox"] sampleOptions 2 2 [(0, ⟨sampleFileA, 1, 0⟩)]
    [⟨sampleFileA, 1, 0⟩] 1 0 ⟨8, 2, 1, 1⟩ rfl (by decide) rfl (by decide)
    rfl (by decide) (by decide) (by decide) (by decide)
    (fun pe hpe hpl => ⟨none, rfl⟩)

theorem render_seq_parallel_pixel_identical_witness :
    ∃ v1 v2 : RenderValue,
      (render emptyChunkModel [sampleFileA] false noSyntaxSet ["gruvbox"]
        sampleOptions 2 [(0, ⟨sampleFileA, 1, 0⟩)]).2 = .ok v1 ∧
      (render emptyChunkModel [sampleFileA] false noSyntaxSet ["gruvbox"]
        {sampleOptions with threads := 2} 2
        [(0, ⟨sampleFileA, 1, 0⟩)]).2 = .ok v2 ∧
      v1.canvas = v2.canvas ∧ v1.imgx = v2.imgx ∧ v1.imgy = v2.imgy :=
  render_seq_parallel_pixel_identical emptyChunkModel [sampleFileA]
    noSyntaxSet ["gruvbox"] sampleOptions 2 2 [(0, ⟨sampleFileA, 1, 0⟩)]
    [⟨sampleFileA, 1, 0⟩] 1 0 ⟨8, 2, 1, 1⟩ none rfl (by decide) rfl
    (by decide) rfl (by decide) (by decide) (by decide) (by decide)
    (fun f hf hpl => ⟨none, rfl⟩) (fun sc f => rfl)

theorem render_fill_pads_trailing_slots_witness :
    ∃ v1 v2 : RenderValue,
      (render emptyChunkModel [sampleFileA] false noSyntaxSet ["gruvbox"]
        sampleOptions 2 [(0, ⟨sampleFileA, 1, 0⟩)]).2 = .ok v1 ∧
      (render emptyChunkModel [sampleFileA] false noSyntaxSet ["gruvbox"]
        {sampleOptions with threads := 3} 2
        [(0, ⟨sampleFileA, 1, 0⟩)]).2 = .ok v2 ∧
      ∀ (i x h : Nat), 1 ≤ i → i < 1 * 1 → x < 8 → h < 2 →
        v1.canvas (slotPos 1 8 2 i x h) = Option.getD none blackRgb ∧
        v2.canvas (slotPos 1 8 2 i x h) = Option.getD none blackRgb :=
  render_fill_pads_trailing_slots emptyChunkModel [sampleFileA]
    noSyntaxSet ["gruvbox"] sampleOptions 2 3 [(0, ⟨sampleFileA, 1, 0⟩)]
    [⟨sampleFileA, 1, 0⟩] 1 0 ⟨8, 2, 1, 1⟩ none rfl (by decide) rfl
    (by decide) rfl (by decide) (by decide) (by decide) (by decide)
    (fun f hf hpl => ⟨none, rfl⟩) (fun sc f => rfl)

theorem run_counter_reaches_total_and_fill_stays_beyond_witness :
    (∀ (st : RunState) (p : Nat),
      seqRun emptyChunkModel noSyntaxSet sampleOptions false 1 1
        ([(⟨sampleFileA, 1, 0⟩ : PlanEntry)].enum)
        ⟨0, 0, none, initialCanvas⟩ 0 = .ok st p → st.line_num = 1) ∧
    (∀ (st : RunState) (p : Nat),
      parRun emptyChunkModel noSyntaxSet sampleOptions false 1 1
        [(0, ⟨sampleFileA, 1, 0⟩)] ⟨0, 0, none, initialCanvas⟩ 0 =
        .ok st p → st.line_num = 1) ∧
    (∀ (c : Canvas) (bg : Rgb) (q : Pos),
      fillLoop 8 2 1 bg 1 (1 * 1 - 1) c q ≠ c q →
      ∃ i x h, 1 ≤ i ∧ i < 1 * 1 ∧ x < 8 ∧ h < 2 ∧
        q = slotPos 1 8 2 i x h) :=
  run_counter_reaches_total_and_fill_stays_beyond emptyChunkModel
    [sampleFileA] noSyntaxSet sampleOptions [(0, ⟨sampleFileA, 1, 0⟩)]
    [⟨sampleFileA, 1, 0⟩] 1 0 ⟨8, 2, 1, 1⟩ rfl (by decide) rfl (by decide)
    (fun f hf hpl => ⟨none, rfl⟩)

theorem run_aggregates_max_and_last_seen_witness :
    seqRun emptyChunkModel noSyntaxSet sampleOptions false 3 3
        [(0, ⟨sampleFileA, 1, 0⟩), (1, ⟨sampleFileB, 2, 1⟩)]
        ⟨0, 0, none, initialCanvas⟩ 0 =
      .ok ⟨entriesLineSum [(0, ⟨sampleFileA, 1, 0⟩),
             (1, ⟨sampleFileB, 2, 1⟩)],
           List.foldl max 0
             (([(0, ⟨sampleFileA, 1, 0⟩),
                (1, ⟨sampleFileB, 2, 1⟩)] :
                List (Nat × PlanEntry)).map (fun pe =>
               (emptyChunkModel.outcome (entryStyle sampleOptions 3 pe.1)
                 pe.2.file).longest_line_in_chars)),
           ((([(0, ⟨sampleFileA, 1, 0⟩),
               (1, ⟨sampleFileB, 2, 1⟩)] :
               List (Nat × PlanEntry)).map (fun pe =>
               (emptyChunkModel.outcome (entryStyle sampleOptions 3 pe.1)
                 pe.2.file).background)).getLast?).getD none,
           applyWrites (seqBlocks emptyChunkModel sampleOptions 3 3 0
             [(0, ⟨sampleFileA, 1, 0⟩), (1, ⟨sampleFileB, 2, 1⟩)]).flatten
             initialCanvas⟩ 2 :=
  (run_aggregates_max_and_last_seen emptyChunkModel noSyntaxSet
    sampleOptions 3 3
    [(0, ⟨sampleFileA, 1, 0⟩), (1, ⟨sampleFileB, 2, 1⟩)]
    [(0, ⟨sampleFileA, 1, 0⟩), (1, ⟨sampleFileB, 2, 1⟩)]
    (fun pe hpe hpl => ⟨none, rfl⟩) (fun pe hpe hpl => ⟨none, rfl⟩)).1

end Codevis
